import Mathlib

/-!
Verification of the optar raster encoder (src/optar-rs/src/lib.rs).

The development shallowly embeds the Rust library into Lean:
pure functions (`Settings` geometry, `parity`, `split`, `hamming`)
become Lean functions on `Nat` (all Rust arithmetic here is on `u64`
values that provably stay below `2 ^ 64` on the inputs considered, so
exact `Nat` arithmetic coincides with the machine arithmetic);
the stateful `OptarWriter` becomes explicit state passing with an
explicit panic/IO-error result type.
-/

deriving instance DecidableEq for Except

namespace Optar

/-- `enum FecOrder { Golay, Hamming(u8) }`. -/
inductive FecOrder where
  | Golay : FecOrder
  | Hamming : Nat → FecOrder
deriving DecidableEq

/-- `FecOrder::large_bits`: Golay 24, Hamming(x) = `1 << x`. -/
def FecOrder.large_bits : FecOrder → Nat
  | .Golay => 24
  | .Hamming x => 1 <<< x

/-- `FecOrder::small_bits`: Golay 12, Hamming(x) = `large_bits - 1 - x`. -/
def FecOrder.small_bits : FecOrder → Nat
  | .Golay => 12
  | .Hamming x => FecOrder.large_bits (.Hamming x) - 1 - x

/-- `impl From<u8> for FecOrder`: 1 selects Golay, anything else Hamming(x). -/
def FecOrder.fromByte (x : Nat) : FecOrder :=
  if x = 1 then .Golay else .Hamming x

/-- `struct Settings`.  All fields are `u64` in the source. -/
structure Settings where
  border : Nat
  chalf : Nat
  cpitch : Nat
  text_width : Nat
  text_height : Nat
  xcrosses : Nat
  ycrosses : Nat
  fec_order : FecOrder
deriving DecidableEq

/-- `impl Default for Settings`. -/
def Settings.default : Settings :=
  { border := 2, chalf := 3, cpitch := 24, text_width := 13, text_height := 24,
    xcrosses := 67, ycrosses := 87, fec_order := .Golay }

namespace Settings

/-- `data_width`: `cpitch*(xcrosses-1)+2*chalf`. -/
def data_width (s : Settings) : Nat := s.cpitch * (s.xcrosses - 1) + 2 * s.chalf

/-- `data_height`: `cpitch*(ycrosses-1)+2*chalf`. -/
def data_height (s : Settings) : Nat := s.cpitch * (s.ycrosses - 1) + 2 * s.chalf

/-- `width`: `2*border+data_width`. -/
def width (s : Settings) : Nat := 2 * s.border + s.data_width

/-- `height`: `2*border+data_height+text_height`. -/
def height (s : Settings) : Nat := 2 * s.border + s.data_height + s.text_height

/-- `narrow_height`: `2*chalf`. -/
def narrow_height (s : Settings) : Nat := 2 * s.chalf

/-- `gap_width`: `cpitch-2*chalf` (u64 subtraction; the claims that rely on
this quantity all assume `2*chalf < cpitch`, under which `Nat` subtraction
agrees with the machine subtraction). -/
def gap_width (s : Settings) : Nat := s.cpitch - 2 * s.chalf

/-- `narrow_width`: `gap_width*(xcrosses-1)`. -/
def narrow_width (s : Settings) : Nat := s.gap_width * (s.xcrosses - 1)

/-- `narrow_pixels`: `narrow_height*narrow_width`. -/
def narrow_pixels (s : Settings) : Nat := s.narrow_height * s.narrow_width

/-- `wide_height`: `gap_width`. -/
def wide_height (s : Settings) : Nat := s.gap_width

/-- `wide_width`: `width-2*border`. -/
def wide_width (s : Settings) : Nat := s.width - 2 * s.border

/-- `wide_pixels`: `wide_height*wide_width`. -/
def wide_pixels (s : Settings) : Nat := s.wide_height * s.wide_width

/-- `rep_height`: `narrow_height + wide_height`. -/
def rep_height (s : Settings) : Nat := s.narrow_height + s.wide_height

/-- `rep_pixels`: `narrow_pixels + wide_pixels`. -/
def rep_pixels (s : Settings) : Nat := s.narrow_pixels + s.wide_pixels

/-- `total_bits`: `rep_pixels*(ycrosses-1)+narrow_pixels`. -/
def total_bits (s : Settings) : Nat := s.rep_pixels * (s.ycrosses - 1) + s.narrow_pixels

/-- `fec_syms`: `total_bits / large_bits`. -/
def fec_syms (s : Settings) : Nat := s.total_bits / s.fec_order.large_bits

/-- `net_bits`: `fec_syms*small_bits`. -/
def net_bits (s : Settings) : Nat := s.fec_syms * s.fec_order.small_bits

/-- `used_bits`: `fec_syms*large_bits`. -/
def used_bits (s : Settings) : Nat := s.fec_syms * s.fec_order.large_bits

/-- `is_cross`: `((x%cpitch) < (2*chalf)) && ((y%cpitch) < (2*chalf))`. -/
def is_cross (s : Settings) (x y : Nat) : Bool :=
  decide (x % s.cpitch < 2 * s.chalf) && decide (y % s.cpitch < 2 * s.chalf)

/-- `seq2xy`: maps a sequence index to data-area coordinates, `None` when out
of range. -/
def seq2xy (s : Settings) (seq : Nat) : Option (Nat × Nat) :=
  if seq ≥ s.total_bits then none
  else
    let rep := seq / s.rep_pixels
    let seq1 := seq % s.rep_pixels
    let y0 := s.rep_height * rep
    if seq1 ≥ s.narrow_pixels then
      -- second, wide strip of the pair
      let seq2 := seq1 - s.narrow_pixels
      let y := y0 + s.narrow_height + seq2 / s.wide_width
      let x := seq2 % s.wide_width
      some (x, y)
    else
      -- first, narrow strip of the pair
      let y := y0 + seq1 / s.narrow_width
      let seq2 := seq1 % s.narrow_width
      let gap := seq2 / s.gap_width
      let seq3 := seq2 % s.gap_width
      let x := 2 * s.chalf + gap * s.cpitch + seq3
      some (x, y)

end Settings

/-- `parity`: XOR-fold by decreasing powers of two; the source loop starts at
`u64::MAX.count_ones() >> 1 = 32` and halves the shift each iteration, which
is unrolled here (shifts 32, 16, 8, 4, 2, 1). -/
def parity (input : Nat) : Nat :=
  let i1 := input ^^^ (input >>> 32)
  let i2 := i1 ^^^ (i1 >>> 16)
  let i3 := i2 ^^^ (i2 >>> 8)
  let i4 := i3 ^^^ (i3 >>> 4)
  let i5 := i4 ^^^ (i4 >>> 2)
  let i6 := i5 ^^^ (i5 >>> 1)
  i6 &&& 1

/-- One folding step of `parity` (verification-side abbreviation of the loop
body `input ^= input >> bit`). -/
def pstep (s v : Nat) : Nat := v ^^^ (v >>> s)

/-- `OptarWriter::split`: insert a zero bit at position `bit`, shifting the
bits at or above that position up by one. -/
def split (input : Nat) (bit : Nat) : Nat :=
  let low := input &&& ((1 <<< bit) - 1)
  let high := input ^^^ low
  (high <<< 1) ||| low

/-- One period of the Hamming parity mask: `"1".repeat(x) + "0".repeat(x)`
(most significant character first, as in the source's radix-2 string). -/
def maskUnit (x : Nat) : List Char :=
  List.replicate x ('1') ++ List.replicate x ('0')

/-- The full 64-character mask string: the unit repeated `64 / (2*x)` times. -/
def maskChars (x : Nat) : List Char :=
  (List.replicate (64 / (2 * x)) (maskUnit x)).flatten

/-- `u64::from_str_radix(_, 2)` on a list of binary digit characters. -/
def fromRadix2 (l : List Char) : Nat :=
  l.foldl (fun a c => 2 * a + (if c = ('1') then 1 else 0)) 0

/-- The Hamming parity mask used for the check bit at position `x`. -/
def hmask (x : Nat) : Nat := fromRadix2 (maskChars x)

/-- The split loop of `OptarWriter::hamming`:
`for bit in 3..(order+1) { input = split(input, 1 << (bit-1)) }`
(the source's `if order >= 3` guard is subsumed: the range is empty
for `order < 3`). -/
def splitLoop : Nat → Nat → Nat
  | input, 0 => input
  | input, 1 => input
  | input, 2 => input
  | input, (n+3) => split (splitLoop input (n+2)) (1 <<< (n+2))

/-- The check-bit loop of `OptarWriter::hamming`:
`for bit in (1..(order+1)).rev() { input |= parity(input & mask) << x }`
with `x = 1 << (bit-1)`; `checkLoop input k` processes `bit = k` first and
descends to `bit = 1`. -/
def checkLoop : Nat → Nat → Nat
  | input, 0 => input
  | input, (k+1) =>
      checkLoop (input ||| (parity (input &&& hmask (1 <<< k)) <<< (1 <<< k))) k

/-- `OptarWriter::hamming`. -/
def hamming (input : Nat) (order : Nat) : Nat :=
  let masked := input &&& ((1 <<< FecOrder.small_bits (.Hamming order)) - 1)
  let shifted := masked <<< 3
  let splitted := splitLoop shifted order
  let checked := checkLoop splitted order
  checked ||| parity checked

/-- Positional syndrome of a received word: the parities over the positional
check masks, reassembled with weight `2^k` for the check bit at position
`2^k` (`k = bit - 1` ranges over `0..order`).  A zero syndrome together with
even overall `parity` means "no error"; overall parity 1 means a single
error whose position is the syndrome value. -/
def syndrome (order : Nat) (r : Nat) : Nat :=
  ∑ k in Finset.range order, parity (r &&& hmask (1 <<< k)) * (1 <<< k)

/-! ## Configuration parsing (`impl FromStr for Settings`) -/

/-- The two failure modes of `Settings::from_str`: a `ParseIntError`
returned as `Err`, or an out-of-bounds `components[i]` indexing, which in
Rust is a panic rather than an `Err`. -/
inductive ConfigError where
  | parseFailed : ConfigError
  | indexPanic : ConfigError
deriving DecidableEq

/-- Rust `str::parse` for an unsigned integer type with exclusive upper
bound `cap` (`2^64` for `u64`, `2^8` for `u8`): optional leading `+`,
then one or more ASCII digits, rejecting overflow. -/
def parseUInt (cap : Nat) (s : List Char) : Option Nat :=
  let digits := match s with
    | '+' :: rest => rest
    | _ => s
  if digits = [] then none
  else if digits.all Char.isDigit then
    let v := digits.foldl (fun a c => 10 * a + (c.toNat - 48)) 0
    if v < cap then some v else none
  else none

/-- `components[i].parse::<u64>()?` lifted to `Except`. -/
def parse64 (t : List Char) : Except ConfigError Nat :=
  match parseUInt (2 ^ 64) t with
  | some v => .ok v
  | none => .error .parseFailed

/-- `components[i].parse::<u8>()?` lifted to `Except`. -/
def parse8 (t : List Char) : Except ConfigError Nat :=
  match parseUInt (2 ^ 8) t with
  | some v => .ok v
  | none => .error .parseFailed

/-- Rust `str::split("-")` on the character list of the string: splits at
every dash, keeping empty pieces (so the result is always nonempty). -/
def splitDash : List Char → List (List Char)
  | [] => [[]]
  | c :: rest =>
      match splitDash rest with
      | [] => [[]]
      | h :: t => if c = ('-') then [] :: h :: t else (c :: h) :: t

/-- `components[i]`: Rust slice indexing panics when out of bounds. -/
def getComponent (l : List (List Char)) (i : Nat) : Except ConfigError (List Char) :=
  match l[i]? with
  | some t => .ok t
  | none => .error .indexPanic

/-- `Settings::from_str`.  The struct-literal fields are evaluated in the
order they are written in the source (`xcrosses, ycrosses, cpitch, chalf,
fec_order, border, text_height`), each one indexing into the split
components and then parsing, with `?` propagating the first parse error. -/
def Settings.fromStr (s : String) : Except ConfigError Settings :=
  let components := splitDash s.data
  match getComponent components 1 with
  | .error e => .error e
  | .ok t1 =>
  match parse64 t1 with
  | .error e => .error e
  | .ok xcrosses =>
  match getComponent components 2 with
  | .error e => .error e
  | .ok t2 =>
  match parse64 t2 with
  | .error e => .error e
  | .ok ycrosses =>
  match getComponent components 3 with
  | .error e => .error e
  | .ok t3 =>
  match parse64 t3 with
  | .error e => .error e
  | .ok cpitch =>
  match getComponent components 4 with
  | .error e => .error e
  | .ok t4 =>
  match parse64 t4 with
  | .error e => .error e
  | .ok chalf =>
  match getComponent components 5 with
  | .error e => .error e
  | .ok t5 =>
  match parse8 t5 with
  | .error e => .error e
  | .ok fecByte =>
  match getComponent components 6 with
  | .error e => .error e
  | .ok t6 =>
  match parse64 t6 with
  | .error e => .error e
  | .ok border =>
  match getComponent components 7 with
  | .error e => .error e
  | .ok t7 =>
  match parse64 t7 with
  | .error e => .error e
  | .ok text_height =>
    .ok { Settings.default with
      xcrosses := xcrosses, ycrosses := ycrosses, cpitch := cpitch,
      chalf := chalf, fec_order := FecOrder.fromByte fecByte,
      border := border, text_height := text_height }

/-! ## The writer (`struct OptarWriter`)

The `image` buffer is modelled as a total pixel function `Nat → Nat → Nat`
(luma value at `(x, y)`); `image::save_buffer` is modelled by an oracle
`ioOracle : Nat → Bool` saying whether the `n`-th save attempt succeeds,
with successful saves recorded in `outputs`.  Panics (`unwrap`, `assert!`,
`unimplemented!`) are modelled by the `Except RunPanic` layer, while
`std::io::Result` values are ordinary values of type `Except PageError
Unit`, so that a caller that drops such a value (as `feed_data` does) is
modelled faithfully.  `reformats` counts `reformat_buffer` executions and
`trace` records every `write_channelbit(bit, seq)` invocation; both are
ghost instrumentation with no effect on the modelled behavior. -/

/-- Rust panics reachable from the writer. -/
inductive RunPanic where
  | unwrapFailed : RunPanic
  | assertFailed : RunPanic
  | golayUnimplemented : RunPanic
deriving DecidableEq

/-- A failed `image::save_buffer` call (an `std::io::Error` value). -/
inductive PageError where
  | saveFailed : PageError
deriving DecidableEq

/-- The writer state (fields of `OptarWriter` plus environment/ghost data). -/
structure WState where
  buf : Nat → Nat → Nat
  settings : Settings
  accu : Nat
  hamming_symbol : Nat
  base_filename : String
  file_number : Nat
  ioOracle : Nat → Bool
  ioCount : Nat
  outputs : List (String × (Nat → Nat → Nat))
  reformats : Nat
  trace : List (Nat × Nat)

/-- `image::ImageBuffer::put_pixel`. -/
def putPixel (x y v : Nat) (buf : Nat → Nat → Nat) : Nat → Nat → Nat :=
  fun a b => if a = x ∧ b = y then v else buf a b

/-- `image::ImageBuffer::from_pixel(_, _, Luma([255u8]))`. -/
def whiteBuf : Nat → Nat → Nat := fun _ _ => 255

/-- `OptarWriter::new`. -/
def OptarWriter.new (settings : Settings) (base_filename : Option String)
    (oracle : Nat → Bool) : WState :=
  { buf := whiteBuf, settings := settings, accu := 1, hamming_symbol := 0,
    base_filename := base_filename.getD ("optar_out"), file_number := 0,
    ioOracle := oracle, ioCount := 0, outputs := [], reformats := 0, trace := [] }

/-- Rust `format!` padding `{:04}`: zero-pad the decimal representation to a
minimum width of 4. -/
def pad4 (n : Nat) : String :=
  let s := Nat.repr n
  if s.length < 4 then String.mk (List.replicate (4 - s.length) ('0')) ++ s else s

/-- The file name produced by `write_output`. -/
def outName (st : WState) : String :=
  st.base_filename ++ ("_") ++ pad4 st.file_number ++ (".png")

/-- `OptarWriter::write_output`: one `image::save_buffer` attempt. -/
def write_output (st : WState) : WState × Except PageError Unit :=
  if st.ioOracle st.ioCount then
    ({ st with ioCount := st.ioCount + 1,
               outputs := st.outputs ++ [(outName st, st.buf)] }, .ok ())
  else
    ({ st with ioCount := st.ioCount + 1 }, .error .saveFailed)

/-- `OptarWriter::border`: the double loop over all buffer coordinates,
darkening a pixel when the source's condition holds (note that the source
compares `y` against `width`, not `height`, in the last disjunct). -/
def borderApply (s : Settings) (buf : Nat → Nat → Nat) : Nat → Nat → Nat :=
  fun x y =>
    if x < s.width ∧ y < s.height ∧
        (x ≤ s.border ∨ x ≥ s.width - s.border ∨ y ≤ s.border ∨
          y ≥ s.width - s.border - s.text_height) then 0
    else buf x y

/-- `OptarWriter::cross`: a fiducial as four `chalf × chalf` quadrants in
checkerboard polarity. -/
def crossApply (s : Settings) (cx cy : Nat) (buf : Nat → Nat → Nat) :
    Nat → Nat → Nat :=
  fun a b =>
    if cx ≤ a ∧ a < cx + s.chalf ∧ cy ≤ b ∧ b < cy + s.chalf then 0
    else if cx + s.chalf ≤ a ∧ a < cx + 2 * s.chalf ∧ cy ≤ b ∧ b < cy + s.chalf then 255
    else if cx ≤ a ∧ a < cx + s.chalf ∧ cy + s.chalf ≤ b ∧ b < cy + 2 * s.chalf then 255
    else if cx + s.chalf ≤ a ∧ a < cx + 2 * s.chalf ∧ cy + s.chalf ≤ b ∧
        b < cy + 2 * s.chalf then 0
    else buf a b

/-- `num::range_step(start, stop, step)` on `u64`. -/
def rangeStep (start stop step : Nat) : List Nat :=
  List.range' start ((stop - start + step - 1) / step) step

/-- `OptarWriter::crosses`. -/
def crossesApply (s : Settings) (buf : Nat → Nat → Nat) : Nat → Nat → Nat :=
  (rangeStep s.border (s.height - s.text_height - s.border - 2 * s.chalf)
      s.cpitch).foldl
    (fun acc y =>
      (rangeStep s.border (s.width - s.border - 2 * s.chalf) s.cpitch).foldl
        (fun acc2 x => crossApply s x y acc2) acc)
    buf

/-- `OptarWriter::reformat_buffer`: fresh white canvas, border, crosses. -/
def reformat_buffer (st : WState) : WState :=
  { st with buf := crossesApply st.settings (borderApply st.settings whiteBuf),
            reformats := st.reformats + 1 }

/-- The tail of `new_file` after the conditional persist:
`assert!(file_number < 9999); file_number += 1; reformat_buffer(); Ok(())`. -/
def newFileFinish (st1 : WState) : Except RunPanic (WState × Except PageError Unit) :=
  if st1.file_number < 9999 then
    .ok (reformat_buffer { st1 with file_number := st1.file_number + 1 }, .ok ())
  else
    .error .assertFailed

/-- `OptarWriter::new_file`: persist the current page when `file_number > 0`
(propagating a save failure via `?`), then `assert!`, increment, reformat. -/
def new_file (st : WState) : Except RunPanic (WState × Except PageError Unit) :=
  if 0 < st.file_number then
    match write_output st with
    | (st1, .error e) => .ok (st1, .error e)
    | (st1, .ok ()) => newFileFinish st1
  else
    newFileFinish st

/-- `OptarWriter::write_channelbit`: mask the bit, resolve `seq` (panicking
on `unwrap` of an absent coordinate), offset by the border and write the
pixel.  The source also computes `bit.wrapping_sub(1)` and discards the
result, so the written luma value is the masked bit itself.  The ghost
`trace` records the invocation's arguments. -/
def write_channelbit (bit seq : Nat) (st : WState) : Except RunPanic WState :=
  let bit1 := bit &&& 1
  match st.settings.seq2xy seq with
  | none => .error .unwrapFailed
  | some (x, y) =>
      .ok { st with
        trace := st.trace ++ [(bit, seq)],
        buf := putPixel (x + st.settings.border) (y + st.settings.border) bit1 st.buf }

/-- The codeword-emission loop of `write_payloadbit`:
`for shift in (0..large_bits).rev() { write_channelbit(accu >> shift, seq) }`
processed here over an explicit list of shift amounts. -/
def emitLoop : List Nat → WState → Except RunPanic WState
  | [], st => .ok st
  | shift :: rest, st =>
      match write_channelbit (st.accu >>> shift)
          (st.hamming_symbol +
            (st.settings.fec_order.large_bits - 1 - shift) * st.settings.fec_syms) st with
      | .error p => .error p
      | .ok st1 => emitLoop rest st1

/-- The tail of a completed symbol's processing: run the emission loop over
all `large_bits` shift amounts, then reset the accumulator to 1 and advance
the symbol index. -/
def emitRest (st : WState) : Except RunPanic (WState × Except PageError Unit) :=
  match emitLoop (List.range st.settings.fec_order.large_bits).reverse st with
  | .error p => .error p
  | .ok st4 =>
      .ok ({ st4 with accu := 1, hamming_symbol := st4.hamming_symbol + 1 }, .ok ())

/-- Symbol completion after the accumulator has been replaced by the
codeword: page rollover when the page is full (`?` propagating a save
failure, resetting the symbol index on success), then emission. -/
def emitSymbol (st : WState) : Except RunPanic (WState × Except PageError Unit) :=
  if st.hamming_symbol ≥ st.settings.fec_syms then
    match new_file st with
    | .error p => .error p
    | .ok (st3, .error e) => .ok (st3, .error e)
    | .ok (st3, .ok ()) => emitRest { st3 with hamming_symbol := 0 }
  else
    emitRest st

/-- `OptarWriter::write_payloadbit`. -/
def write_payloadbit (bit : Nat) (st : WState) :
    Except RunPanic (WState × Except PageError Unit) :=
  let accu1 := (st.accu <<< 1) ||| (bit &&& 1)
  let st1 := { st with accu := accu1 }
  if accu1 &&& (1 <<< st1.settings.fec_order.small_bits) ≠ 0 then
    match st1.settings.fec_order with
    | .Golay => .error .golayUnimplemented
    | .Hamming x => emitSymbol { st1 with accu := hamming accu1 x }
  else
    .ok (st1, .ok ())

/-- The bit loop of `write_byte`, with `?` short-circuiting on an `Err`. -/
def bitsLoop : List Nat → WState → Except RunPanic (WState × Except PageError Unit)
  | [], st => .ok (st, .ok ())
  | b :: rest, st =>
      match write_payloadbit b st with
      | .error p => .error p
      | .ok (st1, .error e) => .ok (st1, .error e)
      | .ok (st1, .ok ()) => bitsLoop rest st1

/-- `OptarWriter::write_byte`: feed the 8 bits most-significant first. -/
def write_byte (c : Nat) (st : WState) :
    Except RunPanic (WState × Except PageError Unit) :=
  bitsLoop ((List.range 8).reverse.map (fun bit => c >>> bit)) st

/-- The byte loop of `feed_data`: `for c in input_stream.bytes() {
self.write_byte(c?); }` — note the `io::Result` returned by `write_byte` is
dropped, so a save failure inside it does not stop the loop. -/
def feedLoop : List Nat → WState → Except RunPanic WState
  | [], st => .ok st
  | c :: rest, st =>
      match write_byte c st with
      | .error p => .error p
      | .ok (st1, _) => feedLoop rest st1

/-- The flush-padding loop of `feed_data`: `for c in 1..small_bits {
self.write_payloadbit(0); }` — again dropping the `io::Result`. -/
def padLoop : Nat → WState → Except RunPanic WState
  | 0, st => .ok st
  | n+1, st =>
      match write_payloadbit 0 st with
      | .error p => .error p
      | .ok (st1, _) => padLoop n st1

/-- `OptarWriter::feed_data` on a fully-available input stream (the byte
list): feed every byte, pad with `small_bits - 1` zero bits, then persist
the final page, whose result is the one the function returns. -/
def feed_data (input : List Nat) (st : WState) :
    Except RunPanic (WState × Except PageError Unit) :=
  match feedLoop input st with
  | .error p => .error p
  | .ok st1 =>
      match padLoop (st1.settings.fec_order.small_bits - 1) st1 with
      | .error p => .error p
      | .ok st2 => .ok (write_output st2)

/-! ## Verification-side definitions -/

/-- Inverse of `seq2xy` on the non-fiducial data rectangle (verification-side
definition used to establish bijectivity; not part of the source). -/
def Settings.xy2seq (s : Settings) (x y : Nat) : Nat :=
  let rep := y / s.cpitch
  let j := y % s.cpitch
  if j < 2 * s.chalf then
    rep * s.rep_pixels + j * s.narrow_width +
      ((x - 2 * s.chalf) / s.cpitch) * s.gap_width + ((x - 2 * s.chalf) % s.cpitch)
  else
    rep * s.rep_pixels + s.narrow_pixels + (j - 2 * s.chalf) * s.wide_width + x

/-- Replay a `write_channelbit` trace on a buffer: each recorded `(bit, seq)`
write sets the pixel at `seq2xy seq` (offset by the border) to `bit &&& 1`. -/
def applyTrace (s : Settings) : List (Nat × Nat) → (Nat → Nat → Nat) → (Nat → Nat → Nat)
  | [], buf => buf
  | e :: rest, buf =>
      applyTrace s rest
        (match s.seq2xy e.2 with
          | none => buf
          | some xy => putPixel (xy.1 + s.border) (xy.2 + s.border) (e.1 &&& 1) buf)

/-- `n` successive invocations of `new_file` (a driver loop propagating both
panics and `Err` results, as `?` would). -/
def iterateNewFile : Nat → WState → Except RunPanic (WState × Except PageError Unit)
  | 0, st => .ok (st, .ok ())
  | n+1, st =>
      match new_file st with
      | .error p => .error p
      | .ok (st1, .error e) => .ok (st1, .error e)
      | .ok (st1, .ok ()) => iterateNewFile n st1

/-- The default geometry with `Hamming(4)` error correction (the concrete
scenario of the specification). -/
def hamming4Settings : Settings := { Settings.default with fec_order := .Hamming 4 }

/-- A deliberately tiny geometry (`total_bits = 4`, `fec_syms = 1`,
`small_bits = 1`) used to exercise page rollover cheaply. -/
def tinySettings : Settings :=
  { Settings.default with
    xcrosses := 2, ycrosses := 1, cpitch := 4, chalf := 1,
    border := 0, text_height := 0, fec_order := .Hamming 2 }

/-- Invariant of the bit packer after `n` payload bits on an untouched
first page (verification-side): geometry unchanged, no page ever finished
(`file_number = 0`, no reformat, nothing persisted), the symbol index is
`n / small_bits`, the accumulator holds the marker bit at position
`n % small_bits`, and the buffer is the all-white canvas with exactly the
traced channel bits applied. -/
def packInv (s : Settings) (n : Nat) (st : WState) : Prop :=
  st.settings = s ∧ st.file_number = 0 ∧ st.reformats = 0 ∧ st.outputs = [] ∧
  st.ioCount = 0 ∧ st.ioOracle = (fun _ => true) ∧
  st.hamming_symbol = n / s.fec_order.small_bits ∧
  2 ^ (n % s.fec_order.small_bits) ≤ st.accu ∧
  st.accu < 2 ^ (n % s.fec_order.small_bits + 1) ∧
  st.buf = applyTrace s st.trace whiteBuf

/-- Persistence environment in which every save succeeds. -/
def alwaysOk : Nat → Bool := fun _ => true

/-- Persistence environment in which exactly the first save attempt fails. -/
def failFirst : Nat → Bool := fun i => decide (i ≠ 0)

end Optar

namespace Optar

/-! ## Theorems -/

/-- `parse64` either succeeds or reports a parse failure, never a panic. -/
theorem parse64_cases (t : List Char) :
    (∃ v, parse64 t = .ok v) ∨ parse64 t = .error .parseFailed := by
  unfold parse64
  cases parseUInt (2 ^ 64) t <;> simp

/-- `parse8` either succeeds or reports a parse failure, never a panic. -/
theorem parse8_cases (t : List Char) :
    (∃ v, parse8 t = .ok v) ∨ parse8 t = .error .parseFailed := by
  unfold parse8
  cases parseUInt (2 ^ 8) t <;> simp

/-- **C4** (code bug): the claim says `write_channelbit(bit, seq)` sets the
pixel at the border-offset `seq2xy seq` coordinate dark for bit 1 and light
for bit 0, and the source's own comment says "White=bit 0, black=bit 1";
but the code writes the masked bit value itself as the 8-bit luma (the
`wrapping_sub(1)` that would map 1 to 0x00 and 0 to 0xFF is computed and
discarded), so bit 0 yields luma 0 = black, not white/light: with the
default Hamming(4) settings (`border = 2`, `seq2xy 0 = (6, 0)`), writing
bit 0 at seq 0 makes pixel (8, 2) luma 0 while an untouched pixel is 255,
and writing bit 1 makes it luma 1 (not 0). -/
theorem C4_polarity_code_bug :
    (write_channelbit 0 0 (OptarWriter.new hamming4Settings none alwaysOk)).map
        (fun st => (st.buf 8 2, st.buf 9 2)) = .ok (0, 255) ∧
    (write_channelbit 1 0 (OptarWriter.new hamming4Settings none alwaysOk)).map
        (fun st => st.buf 8 2) = .ok 1 ∧
    hamming4Settings.seq2xy 0 = some (6, 0) ∧
    hamming4Settings.border = 2 := by
  exact ⟨by decide, by decide, by decide, by decide⟩

set_option maxRecDepth 8000 in
/-- **C3** counterexample: with Hamming(4) and default geometry, feeding the
single byte 0xA5 does NOT write the bits of `hamming(0b10100101_0, 4)` (the
claim's constant, `330`): the symbol completes only after three zero
padding bits, so the encoded register is `0b10100101000 = 1320`, and
`hamming 330 4 = 10417 ≠ 42390 = hamming 1320 4`. -/
theorem C3_counterexample :
    (feed_data [165] (OptarWriter.new hamming4Settings none alwaysOk)).map
        (fun p => (p.1.trace.take 16).map (fun e => e.1 &&& 1)) ≠
      .ok ((List.range 16).map (fun p => (hamming 330 4 >>> (15 - p)) &&& 1)) := by
  decide

/-- **C6** (code bug): the claim (and the spec) say every page-flush I/O
failure during `feed_data` surfaces as `feed_data`'s result; but the source
drops the `io::Result` of `write_byte` (and of the padding
`write_payloadbit` calls), so a failed save inside the byte loop is
discarded.  Concretely, with the tiny geometry (1 symbol per page, 1
payload bit per symbol) and an environment failing exactly the first save:
`write_byte 255` itself reports the save failure, yet `feed_data [255]`
returns success, having made 2 save attempts of which only 1 succeeded. -/
theorem C6_discarded_flush_error_code_bug :
    (write_byte 255 (OptarWriter.new tinySettings none failFirst)).map
        (fun p => p.2) = .ok (.error .saveFailed) ∧
    (feed_data [255] (OptarWriter.new tinySettings none failFirst)).map
        (fun p => (p.1.ioCount, p.1.outputs.length, p.2.isOk)) = .ok (2, 1, true) ∧
    failFirst 0 = false := by
  exact ⟨by decide, by decide, by decide⟩

/-- **C7** counterexample: a configuration string with `cpitch = 4 ≤ 6 =
2*chalf` is not rejected at construction: `Settings::from_str` accepts it
(no validation is performed when the settings structure is produced). -/
theorem C7_counterexample :
    (Settings.fromStr "x-2-2-4-3-2-0-0").map (fun s => (s.cpitch, s.chalf)) = .ok (4, 3) ∧
    ¬ (2 * 3 < 4) := by
  exact ⟨by decide, by decide⟩

/-- **C7** amended: constructing `Settings` performs no eager validation at
all: whenever the seven positional tokens of the dash-split string parse as
integers (u64, with the FEC order read as u8), `from_str` returns `Ok` with
exactly those field values, regardless of any geometric relation such as
`cpitch ≤ 2*chalf`. -/
theorem C7_amended_no_validation (str : String)
    (t1 t2 t3 t4 t5 t6 t7 : List Char) (c1 c2 c3 c4 c5 c6 c7 : Nat)
    (h1 : (splitDash str.data)[1]? = some t1) (p1 : parse64 t1 = .ok c1)
    (h2 : (splitDash str.data)[2]? = some t2) (p2 : parse64 t2 = .ok c2)
    (h3 : (splitDash str.data)[3]? = some t3) (p3 : parse64 t3 = .ok c3)
    (h4 : (splitDash str.data)[4]? = some t4) (p4 : parse64 t4 = .ok c4)
    (h5 : (splitDash str.data)[5]? = some t5) (p5 : parse8 t5 = .ok c5)
    (h6 : (splitDash str.data)[6]? = some t6) (p6 : parse64 t6 = .ok c6)
    (h7 : (splitDash str.data)[7]? = some t7) (p7 : parse64 t7 = .ok c7) :
    Settings.fromStr str = .ok { Settings.default with
      xcrosses := c1, ycrosses := c2, cpitch := c3, chalf := c4,
      fec_order := FecOrder.fromByte c5, border := c6, text_height := c7 } := by
  unfold Settings.fromStr getComponent
  simp only [h1, h2, h3, h4, h5, h6, h7, p1, p2, p3, p4, p5, p6, p7]

/-- Witness for C7: the counterexample string is accepted with its parsed
(geometrically invalid) field values. -/
theorem C7_amended_witness :
    Settings.fromStr "x-2-2-4-3-2-0-0" = .ok { Settings.default with
      xcrosses := 2, ycrosses := 2, cpitch := 4, chalf := 3,
      fec_order := FecOrder.fromByte 2, border := 0, text_height := 0 } :=
  C7_amended_no_validation "x-2-2-4-3-2-0-0"
    (['2']) (['2']) (['4']) (['3']) (['2']) (['0']) (['0'])
    2 2 4 3 2 0 0
    (by decide) (by decide) (by decide) (by decide) (by decide) (by decide)
    (by decide) (by decide) (by decide) (by decide) (by decide) (by decide)
    (by decide) (by decide)

/-- **C8** amended: when all eight dash-separated components are present, a
malformed token surfaces exactly as the integer-parse `Err`; but when
tokens are missing the constructor never returns `Ok` — it either returns
an earlier token's parse `Err` or panics on out-of-bounds indexing. -/
theorem C8_amended (str : String) :
    (8 ≤ (splitDash str.data).length →
      (∃ s, Settings.fromStr str = .ok s) ∨
        Settings.fromStr str = .error .parseFailed) ∧
    ((splitDash str.data).length < 8 →
      (∀ s, Settings.fromStr str ≠ .ok s) ∧
        (Settings.fromStr str = .error .indexPanic ∨
          Settings.fromStr str = .error .parseFailed)) := by
  constructor
  · intro hlen
    unfold Settings.fromStr getComponent
    simp only [List.getElem?_eq_getElem (show 1 < (splitDash str.data).length by omega)]
    rcases parse64_cases ((splitDash str.data)[1]) with ⟨v1, hv1⟩ | hv1 <;>
      simp only [hv1]
    case inr => simp
    simp only [List.getElem?_eq_getElem (show 2 < (splitDash str.data).length by omega)]
    rcases parse64_cases ((splitDash str.data)[2]) with ⟨v2, hv2⟩ | hv2 <;>
      simp only [hv2]
    case inr => simp
    simp only [List.getElem?_eq_getElem (show 3 < (splitDash str.data).length by omega)]
    rcases parse64_cases ((splitDash str.data)[3]) with ⟨v3, hv3⟩ | hv3 <;>
      simp only [hv3]
    case inr => simp
    simp only [List.getElem?_eq_getElem (show 4 < (splitDash str.data).length by omega)]
    rcases parse64_cases ((splitDash str.data)[4]) with ⟨v4, hv4⟩ | hv4 <;>
      simp only [hv4]
    case inr => simp
    simp only [List.getElem?_eq_getElem (show 5 < (splitDash str.data).length by omega)]
    rcases parse8_cases ((splitDash str.data)[5]) with ⟨v5, hv5⟩ | hv5 <;>
      simp only [hv5]
    case inr => simp
    simp only [List.getElem?_eq_getElem (show 6 < (splitDash str.data).length by omega)]
    rcases parse64_cases ((splitDash str.data)[6]) with ⟨v6, hv6⟩ | hv6 <;>
      simp only [hv6]
    case inr => simp
    simp only [List.getElem?_eq_getElem (show 7 < (splitDash str.data).length by omega)]
    rcases parse64_cases ((splitDash str.data)[7]) with ⟨v7, hv7⟩ | hv7 <;>
      simp only [hv7]
    case inr => simp
    simp
  · intro hlen
    have key : Settings.fromStr str = .error .indexPanic ∨
        Settings.fromStr str = .error .parseFailed := by
      unfold Settings.fromStr getComponent
      cases k1 : (splitDash str.data)[1]? with
      | none => simp [k1]
      | some t1 =>
      simp only [k1]
      rcases parse64_cases t1 with ⟨v1, hv1⟩ | hv1 <;> simp only [hv1]
      case inr => simp
      cases k2 : (splitDash str.data)[2]? with
      | none => simp [k2]
      | some t2 =>
      simp only [k2]
      rcases parse64_cases t2 with ⟨v2, hv2⟩ | hv2 <;> simp only [hv2]
      case inr => simp
      cases k3 : (splitDash str.data)[3]? with
      | none => simp [k3]
      | some t3 =>
      simp only [k3]
      rcases parse64_cases t3 with ⟨v3, hv3⟩ | hv3 <;> simp only [hv3]
      case inr => simp
      cases k4 : (splitDash str.data)[4]? with
      | none => simp [k4]
      | some t4 =>
      simp only [k4]
      rcases parse64_cases t4 with ⟨v4, hv4⟩ | hv4 <;> simp only [hv4]
      case inr => simp
      cases k5 : (splitDash str.data)[5]? with
      | none => simp [k5]
      | some t5 =>
      simp only [k5]
      rcases parse8_cases t5 with ⟨v5, hv5⟩ | hv5 <;> simp only [hv5]
      case inr => simp
      cases k6 : (splitDash str.data)[6]? with
      | none => simp [k6]
      | some t6 =>
      simp only [k6]
      rcases parse64_cases t6 with ⟨v6, hv6⟩ | hv6 <;> simp only [hv6]
      case inr => simp
      simp only [List.getElem?_eq_none (show (splitDash str.data).length ≤ 7 by omega)]
      simp
    exact ⟨fun s hs => by rcases key with h | h <;> rw [h] at hs <;> exact Except.noConfusion hs, key⟩

/-- Witness for C8: a string with eight present components and an unparsable
token yields the parse `Err`; the missing-token string yields no `Ok` and
fails by panic or parse error. -/
theorem C8_amended_witness :
    ((∃ s, Settings.fromStr "x-2-abc-0-0-0-0-0" = .ok s) ∨
      Settings.fromStr "x-2-abc-0-0-0-0-0" = .error .parseFailed) ∧
    ((∀ s, Settings.fromStr "_" ≠ .ok s) ∧
      (Settings.fromStr "_" = .error .indexPanic ∨
        Settings.fromStr "_" = .error .parseFailed)) :=
  ⟨(C8_amended ("x-2-abc-0-0-0-0-0")).1 (by decide),
   (C8_amended ("_")).2 (by decide)⟩

/-- **C8** counterexample: a configuration string with missing tokens does
not produce an `Err` carrying an integer-parse failure: indexing
`components[1]` panics (modelled as `ConfigError.indexPanic`, distinct from
the `Err` case `ConfigError.parseFailed`). -/
theorem C8_counterexample :
    Settings.fromStr "_" = .error .indexPanic ∧
    ConfigError.indexPanic ≠ ConfigError.parseFailed := by
  exact ⟨by decide, by decide⟩

/-- `write_output` in a state whose environment accepts the save: the page
is recorded under the current file number's name and the attempt counter
advances. -/
theorem write_output_ok (st : WState) (h : st.ioOracle st.ioCount = true) :
    write_output st =
      ({ st with ioCount := st.ioCount + 1,
                 outputs := st.outputs ++ [(outName st, st.buf)] }, .ok ()) := by
  unfold write_output
  rw [if_pos h]

/-- `new_file` on a fresh writer (`file_number = 0`): persists nothing,
passes the assertion, increments the counter and reformats. -/
theorem new_file_zero (st : WState) (h0 : st.file_number = 0) :
    new_file st = .ok (reformat_buffer { st with file_number := 1 }, .ok ()) := by
  unfold new_file newFileFinish
  rw [if_neg (by omega), if_pos (by omega : st.file_number < 9999), h0]

/-- `new_file` mid-run (`0 < file_number < 9999`, accepting environment):
persists the current page under the current number, then increments and
reformats. -/
theorem new_file_ok_pos (st : WState) (h0 : 0 < st.file_number)
    (h1 : st.ioOracle st.ioCount = true) (h2 : st.file_number < 9999) :
    new_file st = .ok (reformat_buffer
      { st with ioCount := st.ioCount + 1,
                outputs := st.outputs ++ [(outName st, st.buf)],
                file_number := st.file_number + 1 }, .ok ()) := by
  unfold new_file
  rw [if_pos h0, write_output_ok st h1]
  show newFileFinish _ = _
  unfold newFileFinish
  rw [if_pos (show ({ st with
    ioCount := st.ioCount + 1,
    outputs := st.outputs ++ [(outName st, st.buf)] } : WState).file_number < 9999 from h2)]

/-- `new_file` at the cap (`file_number ≥ 9999`): the page is still saved,
then the assertion fails. -/
theorem new_file_assertFailed (st : WState) (h0 : ¬ st.file_number < 9999)
    (h1 : st.ioOracle st.ioCount = true) :
    new_file st = .error .assertFailed := by
  unfold new_file
  rw [if_pos (by omega), write_output_ok st h1]
  show newFileFinish _ = _
  unfold newFileFinish
  rw [if_neg (show ¬ ({ st with
    ioCount := st.ioCount + 1,
    outputs := st.outputs ++ [(outName st, st.buf)] } : WState).file_number < 9999 by
      show ¬ st.file_number < 9999
      omega)]

/-- Unfolding one `new_file` invocation of the driver loop. -/
theorem iterateNewFile_succ (n : Nat) (st : WState) :
    iterateNewFile (n + 1) st =
      (match new_file st with
        | Except.error p => Except.error p
        | Except.ok (st1, Except.error e) => Except.ok (st1, Except.error e)
        | Except.ok (st1, Except.ok ()) => iterateNewFile n st1) := rfl

/-- Splitting a run of `new_file` invocations. -/
theorem iterateNewFile_add (m k : Nat) : ∀ st : WState,
    iterateNewFile (m + k) st =
      (match iterateNewFile m st with
        | Except.error p => Except.error p
        | Except.ok (st1, Except.error e) => Except.ok (st1, Except.error e)
        | Except.ok (st1, Except.ok ()) => iterateNewFile k st1) := by
  induction m with
  | zero =>
      intro st
      rw [Nat.zero_add]
      rfl
  | succ m ih =>
      intro st
      rw [show m + 1 + k = (m + k) + 1 by omega, iterateNewFile_succ (m + k) st,
        iterateNewFile_succ m st]
      cases hnf : new_file st with
      | error p => rfl
      | ok pr =>
          obtain ⟨st1, r⟩ := pr
          cases r with
          | error e => rfl
          | ok u =>
              cases u
              exact ih st1

/-- Iterating `new_file` from a state already on page `file_number ≥ 1`
with an accepting environment: each invocation persists the then-current
page number, so `n` invocations append exactly the names numbered
`file_number, …, file_number + n - 1` and advance the counter by `n`. -/
theorem iterateNewFile_spec (n : Nat) : ∀ st : WState, st.ioOracle = alwaysOk →
    1 ≤ st.file_number → st.file_number + n ≤ 9999 →
    ∃ stf, iterateNewFile n st = .ok (stf, .ok ()) ∧
      stf.ioOracle = st.ioOracle ∧
      stf.base_filename = st.base_filename ∧
      stf.file_number = st.file_number + n ∧
      stf.reformats = st.reformats + n ∧
      stf.outputs.map Prod.fst = st.outputs.map Prod.fst ++
        (List.range n).map (fun i =>
          st.base_filename ++ ("_") ++ pad4 (st.file_number + i) ++ (".png")) := by
  induction n with
  | zero =>
      intro st hor hf hcap
      exact ⟨st, rfl, rfl, rfl, rfl, rfl, by simp⟩
  | succ n ih =>
      intro st hor hf hcap
      have hnf := new_file_ok_pos st (by omega) (by rw [hor]; rfl) (by omega)
      obtain ⟨stf, hrun, f1, f2, f3, f4, f5⟩ :=
        ih (reformat_buffer
            { st with ioCount := st.ioCount + 1,
                      outputs := st.outputs ++ [(outName st, st.buf)],
                      file_number := st.file_number + 1 })
          hor (show 1 ≤ st.file_number + 1 by omega)
          (show st.file_number + 1 + n ≤ 9999 by omega)
      refine ⟨stf, ?_, ?_, ?_, ?_, ?_, ?_⟩
      · rw [iterateNewFile_succ, hnf]
        exact hrun
      · exact f1
      · exact f2
      · rw [f3]
        show st.file_number + 1 + n = st.file_number + (n + 1)
        omega
      · rw [f4]
        show st.reformats + 1 + n = st.reformats + (n + 1)
        omega
      · rw [f5]
        show (st.outputs ++ [(outName st, st.buf)]).map Prod.fst ++
            (List.range n).map (fun i =>
              st.base_filename ++ ("_") ++ pad4 (st.file_number + 1 + i) ++ (".png")) = _
        rw [List.map_append, List.append_assoc]
        congr 1
        show (outName st) :: _ = _
        rw [List.range_succ_eq_map, List.map_cons, List.map_map]
        congr 1
        apply List.map_congr_left
        intro i hi
        show st.base_filename ++ ("_") ++ pad4 (st.file_number + 1 + i) ++ (".png") =
          st.base_filename ++ ("_") ++ pad4 (st.file_number + (i + 1)) ++ (".png")
        rw [show st.file_number + 1 + i = st.file_number + (i + 1) by omega]

/-- **C5**: starting from a fresh writer with an accepting environment, the
first `new_file` invocation persists nothing and only prepares page 1
(counter 0 → 1, one reformat), and each subsequent invocation persists the
just-completed page first, so after `n ≤ 9999` invocations the persisted
files are exactly base_0001.png … up to number `n - 1` (zero-padded
four-digit numbers starting at 0001, each exactly once) and the counter is
`n`; the counter is validated against its cap below 9999: a 10000th
invocation still persists page 9999 but then fails
`assert!(file_number < 9999)`. -/
theorem C5_new_file_pages (s : Settings) (base : String) (n : Nat)
    (hn1 : 1 ≤ n) (hn2 : n ≤ 9999) :
    (∃ stf, iterateNewFile n (OptarWriter.new s (some base) alwaysOk) = .ok (stf, .ok ()) ∧
      stf.file_number = n ∧ stf.reformats = n ∧
      stf.outputs.map Prod.fst = (List.range (n - 1)).map
        (fun i => base ++ ("_") ++ pad4 (1 + i) ++ (".png"))) ∧
    pad4 1 = ("0001") ∧
    iterateNewFile 10000 (OptarWriter.new s (some base) alwaysOk) = .error .assertFailed := by
  have hz : new_file (OptarWriter.new s (some base) alwaysOk) =
      .ok (reformat_buffer { OptarWriter.new s (some base) alwaysOk with file_number := 1 },
        .ok ()) :=
    new_file_zero _ rfl
  refine ⟨?_, by decide, ?_⟩
  · obtain ⟨m, rfl⟩ : ∃ m, n = m + 1 := ⟨n - 1, by omega⟩
    obtain ⟨stf, hrun, f1, f2, f3, f4, f5⟩ :=
      iterateNewFile_spec m
        (reformat_buffer { OptarWriter.new s (some base) alwaysOk with file_number := 1 })
        rfl (by show 1 ≤ 1; omega) (by show 1 + m ≤ 9999; omega)
    refine ⟨stf, ?_, ?_, ?_, ?_⟩
    · rw [iterateNewFile_succ, hz]
      exact hrun
    · rw [f3]
      show 1 + m = m + 1
      omega
    · rw [f4]
      show 1 + m = m + 1
      omega
    · rw [f5]
      show List.map Prod.fst [] ++ _ = _
      rw [List.map_nil, List.nil_append]
      rfl
  · rw [show (10000 : Nat) = 1 + (9998 + 1) by omega, iterateNewFile_add]
    have h1 : iterateNewFile 1 (OptarWriter.new s (some base) alwaysOk) =
        .ok (reformat_buffer
          { OptarWriter.new s (some base) alwaysOk with file_number := 1 }, .ok ()) := by
      rw [show (1 : Nat) = 0 + 1 by omega, iterateNewFile_succ, hz]
      rfl
    rw [h1]
    show iterateNewFile (9998 + 1) _ = _
    rw [iterateNewFile_add]
    obtain ⟨stf, hrun, f1, f2, f3, f4, f5⟩ :=
      iterateNewFile_spec 9998
        (reformat_buffer { OptarWriter.new s (some base) alwaysOk with file_number := 1 })
        rfl (by show 1 ≤ 1; omega) (by show 1 + 9998 ≤ 9999; omega)
    rw [hrun]
    show iterateNewFile 1 stf = _
    have hlast : new_file stf = .error .assertFailed := by
      apply new_file_assertFailed
      · rw [f3]
        show ¬ (1 : Nat) + 9998 < 9999
        omega
      · rw [f1]
        rfl
    rw [show (1 : Nat) = 0 + 1 by omega, iterateNewFile_succ, hlast]

/-- Witness for C5 at `n = 3`: three invocations persist pages 0001 and 0002
and leave the counter at 3. -/
theorem C5_witness :
    (∃ stf, iterateNewFile 3 (OptarWriter.new tinySettings (some ("b")) alwaysOk) =
        .ok (stf, .ok ()) ∧
      stf.file_number = 3 ∧ stf.reformats = 3 ∧
      stf.outputs.map Prod.fst = (List.range (3 - 1)).map
        (fun i => ("b") ++ ("_") ++ pad4 (1 + i) ++ (".png"))) ∧
    pad4 1 = ("0001") ∧
    iterateNewFile 10000 (OptarWriter.new tinySettings (some ("b")) alwaysOk) =
      .error .assertFailed :=
  C5_new_file_pages tinySettings ("b") 3 (by decide) (by decide)

/-- `write_output` when the environment rejects the save. -/
theorem write_output_fail (st : WState) (h : st.ioOracle st.ioCount = false) :
    write_output st = ({ st with ioCount := st.ioCount + 1 }, .error .saveFailed) := by
  unfold write_output
  rw [if_neg (by rw [h]; exact Bool.false_ne_true)]

/-- `new_file` mid-run when the save fails: the error is returned as the
`Err` value (via `?`), before the assert/increment/reformat. -/
theorem new_file_saveFailed (st : WState) (h0 : 0 < st.file_number)
    (h1 : st.ioOracle st.ioCount = false) :
    new_file st = .ok ({ st with ioCount := st.ioCount + 1 }, .error .saveFailed) := by
  unfold new_file
  rw [if_pos h0, write_output_fail st h1]

/-- Whatever the environment does, `new_file` either panics on the
`assert!` or returns a state whose settings, accumulator, symbol index and
trace are unchanged. -/
theorem new_file_cases (st : WState) :
    new_file st = .error .assertFailed ∨
    ∃ st1 r, new_file st = .ok (st1, r) ∧ st1.settings = st.settings ∧
      st1.accu = st.accu ∧ st1.hamming_symbol = st.hamming_symbol ∧
      st1.trace = st.trace := by
  by_cases h0 : 0 < st.file_number
  · by_cases hio : st.ioOracle st.ioCount = true
    · by_cases h9 : st.file_number < 9999
      · right
        rw [new_file_ok_pos st h0 hio h9]
        exact ⟨_, _, rfl, rfl, rfl, rfl, rfl⟩
      · left
        exact new_file_assertFailed st h9 hio
    · right
      rw [new_file_saveFailed st h0 (by revert hio; cases st.ioOracle st.ioCount <;> simp)]
      exact ⟨_, _, rfl, rfl, rfl, rfl, rfl⟩
  · right
    rw [new_file_zero st (by omega)]
    exact ⟨_, _, rfl, rfl, rfl, rfl, rfl⟩

/-- An in-range sequence index always resolves to a coordinate. -/
theorem seq2xy_ne_none (s : Settings) (seq : Nat) (h : seq < s.total_bits) :
    s.seq2xy seq ≠ none := by
  unfold Settings.seq2xy
  rw [if_neg (by omega)]
  dsimp only
  split <;> simp

/-- `write_channelbit` on an in-range index: records the invocation in the
trace and writes the masked bit at the border-offset coordinate. -/
theorem write_channelbit_ok (bit seq : Nat) (st : WState) (x y : Nat)
    (hxy : st.settings.seq2xy seq = some (x, y)) :
    write_channelbit bit seq st = .ok { st with
      trace := st.trace ++ [(bit, seq)],
      buf := putPixel (x + st.settings.border) (y + st.settings.border) (bit &&& 1) st.buf } := by
  unfold write_channelbit
  rw [hxy]

/-- Unfolding one emission step. -/
theorem emitLoop_cons (sh : Nat) (rest : List Nat) (st : WState) :
    emitLoop (sh :: rest) st =
      (match write_channelbit (st.accu >>> sh)
          (st.hamming_symbol +
            (st.settings.fec_order.large_bits - 1 - sh) * st.settings.fec_syms) st with
        | Except.error p => Except.error p
        | Except.ok st1 => emitLoop rest st1) := rfl

/-- Unfolding one trace-replay step. -/
theorem applyTrace_cons (s : Settings) (e : Nat × Nat) (l : List (Nat × Nat))
    (buf : Nat → Nat → Nat) :
    applyTrace s (e :: l) buf = applyTrace s l
      (match s.seq2xy e.2 with
        | none => buf
        | some xy => putPixel (xy.1 + s.border) (xy.2 + s.border) (e.1 &&& 1) buf) := rfl

/-- The emission loop, when every computed sequence index is in range:
succeeds, appends exactly one trace entry per shift amount, writes exactly
those pixels, and leaves every other component of the state unchanged. -/
theorem emitLoop_spec (shifts : List Nat) : ∀ st : WState,
    (∀ sh ∈ shifts, st.hamming_symbol +
        (st.settings.fec_order.large_bits - 1 - sh) * st.settings.fec_syms <
        st.settings.total_bits) →
    ∃ st', emitLoop shifts st = .ok st' ∧
      st'.settings = st.settings ∧ st'.accu = st.accu ∧
      st'.hamming_symbol = st.hamming_symbol ∧
      st'.file_number = st.file_number ∧ st'.outputs = st.outputs ∧
      st'.ioCount = st.ioCount ∧ st'.ioOracle = st.ioOracle ∧
      st'.reformats = st.reformats ∧ st'.base_filename = st.base_filename ∧
      st'.trace = st.trace ++ shifts.map (fun sh =>
        (st.accu >>> sh, st.hamming_symbol +
          (st.settings.fec_order.large_bits - 1 - sh) * st.settings.fec_syms)) ∧
      st'.buf = applyTrace st.settings (shifts.map (fun sh =>
        (st.accu >>> sh, st.hamming_symbol +
          (st.settings.fec_order.large_bits - 1 - sh) * st.settings.fec_syms))) st.buf := by
  induction shifts with
  | nil =>
      intro st h
      exact ⟨st, rfl, rfl, rfl, rfl, rfl, rfl, rfl, rfl, rfl, rfl, by simp,
        by simp [applyTrace]⟩
  | cons sh rest ih =>
      intro st h
      have hseq := h sh (List.mem_cons_self sh rest)
      obtain ⟨x, y, hxy⟩ : ∃ x y, st.settings.seq2xy (st.hamming_symbol +
          (st.settings.fec_order.large_bits - 1 - sh) * st.settings.fec_syms) =
          some (x, y) := by
        cases hc : st.settings.seq2xy (st.hamming_symbol +
            (st.settings.fec_order.large_bits - 1 - sh) * st.settings.fec_syms) with
        | none => exact absurd hc (seq2xy_ne_none _ _ hseq)
        | some xy => exact ⟨xy.1, xy.2, rfl⟩
      obtain ⟨st', hrun, c1, c2, c3, c4, c5, c6, c7, c8, c9, c10, c11⟩ :=
        ih { st with
              trace := st.trace ++ [(st.accu >>> sh, st.hamming_symbol +
                (st.settings.fec_order.large_bits - 1 - sh) * st.settings.fec_syms)],
              buf := putPixel (x + st.settings.border) (y + st.settings.border)
                ((st.accu >>> sh) &&& 1) st.buf }
          (fun sh2 hsh2 => h sh2 (List.mem_cons_of_mem sh hsh2))
      refine ⟨st', ?_, c1, c2, c3, c4, c5, c6, c7, c8, c9, ?_, ?_⟩
      · rw [emitLoop_cons, write_channelbit_ok _ _ st x y hxy]
        exact hrun
      · rw [c10]
        show (st.trace ++ [(st.accu >>> sh, _)]) ++ rest.map _ = _
        rw [List.append_assoc, List.map_cons]
        rfl
      · rw [c11]
        simp only [List.map_cons, applyTrace_cons, hxy]

/-- A sequence index `h + p * fec_syms` with `h < fec_syms` and
`p < large_bits` lies below `used_bits` and hence below `total_bits`. -/
theorem seq_lt_total (s : Settings) (h p : Nat) (hh : h < s.fec_syms)
    (hp : p < s.fec_order.large_bits) :
    h + p * s.fec_syms < s.used_bits ∧ h + p * s.fec_syms < s.total_bits := by
  have hused : s.used_bits ≤ s.total_bits := Nat.div_mul_le_self _ _
  have h2 : p * s.fec_syms ≤ (s.fec_order.large_bits - 1) * s.fec_syms :=
    Nat.mul_le_mul_right _ (by omega)
  have h3 : s.fec_syms + (s.fec_order.large_bits - 1) * s.fec_syms =
      s.fec_order.large_bits * s.fec_syms := by
    rw [Nat.sub_one_mul,
      Nat.add_sub_cancel' (Nat.le_mul_of_pos_left s.fec_syms (by omega))]
  have h4 : h + p * s.fec_syms < s.used_bits := by
    have h5 : h + p * s.fec_syms <
        s.fec_syms + (s.fec_order.large_bits - 1) * s.fec_syms :=
      add_lt_add_of_lt_of_le hh h2
    rw [h3] at h5
    rw [show s.used_bits = s.fec_syms * s.fec_order.large_bits from rfl,
      Nat.mul_comm s.fec_syms s.fec_order.large_bits]
    exact h5
  exact ⟨h4, lt_of_lt_of_le h4 hused⟩

/-- The emission tail on a state whose symbol index is strictly inside the
page: succeeds, appends one in-range trace entry per codeword bit, resets
the accumulator and advances the symbol index. -/
theorem emitRest_spec (st : WState) (hh : st.hamming_symbol < st.settings.fec_syms) :
    ∃ st4, emitRest st = .ok (st4, .ok ()) ∧
      st4.settings = st.settings ∧ st4.accu = 1 ∧
      st4.hamming_symbol = st.hamming_symbol + 1 ∧
      st4.file_number = st.file_number ∧ st4.outputs = st.outputs ∧
      st4.ioCount = st.ioCount ∧ st4.ioOracle = st.ioOracle ∧
      st4.reformats = st.reformats ∧ st4.base_filename = st.base_filename ∧
      st4.trace = st.trace ++ ((List.range st.settings.fec_order.large_bits).reverse).map
        (fun sh => (st.accu >>> sh, st.hamming_symbol +
          (st.settings.fec_order.large_bits - 1 - sh) * st.settings.fec_syms)) ∧
      st4.buf = applyTrace st.settings
        (((List.range st.settings.fec_order.large_bits).reverse).map
          (fun sh => (st.accu >>> sh, st.hamming_symbol +
            (st.settings.fec_order.large_bits - 1 - sh) * st.settings.fec_syms))) st.buf := by
  obtain ⟨st', hrun, c1, c2, c3, c4, c5, c6, c7, c8, c9, c10, c11⟩ :=
    emitLoop_spec (List.range st.settings.fec_order.large_bits).reverse st
      (by
        intro sh hsh
        rw [List.mem_reverse, List.mem_range] at hsh
        exact (seq_lt_total st.settings st.hamming_symbol
          (st.settings.fec_order.large_bits - 1 - sh) hh (by omega)).2)
  refine ⟨{ st' with accu := 1, hamming_symbol := st'.hamming_symbol + 1 }, ?_,
    c1, rfl, ?_, c4, c5, c6, c7, c8, c9, c10, c11⟩
  · unfold emitRest
    rw [hrun]
  · show st'.hamming_symbol + 1 = st.hamming_symbol + 1
    rw [c3]

/-- **C9**: during encoding with a Hamming order and a page capacity of at
least one symbol, `write_payloadbit` never hits the `unwrap` inside
`write_channelbit`: `used_bits ≤ total_bits` holds, every `write_channelbit`
invocation it performs (recorded in the ghost trace) has
`seq < used_bits ≤ total_bits` (because at emission the symbol index is
below `fec_syms` and the bit-plane index is below `large_bits`), and on such
indices `seq2xy` is never `none`. -/
theorem C9_write_channelbit_in_range (st : WState) (bit x : Nat)
    (hfec : st.settings.fec_order = .Hamming x)
    (hsyms : 1 ≤ st.settings.fec_syms) :
    write_payloadbit bit st ≠ .error .unwrapFailed ∧
    st.settings.used_bits ≤ st.settings.total_bits ∧
    (∀ st1 r, write_payloadbit bit st = .ok (st1, r) →
      ∀ e ∈ st1.trace, e ∈ st.trace ∨
        (e.2 < st.settings.used_bits ∧ e.2 < st.settings.total_bits ∧
          st.settings.seq2xy e.2 ≠ none)) := by
  have master : (∃ st1 r, write_payloadbit bit st = .ok (st1, r) ∧
      (∀ e ∈ st1.trace, e ∈ st.trace ∨ ∃ h2 p, e.2 = h2 + p * st.settings.fec_syms ∧
        h2 < st.settings.fec_syms ∧ p < st.settings.fec_order.large_bits)) ∨
      write_payloadbit bit st = .error .assertFailed := by
    unfold write_payloadbit
    dsimp only
    by_cases hmark : ((st.accu <<< 1) ||| (bit &&& 1)) &&&
        (1 <<< st.settings.fec_order.small_bits) ≠ 0
    · rw [if_pos hmark, hfec]
      dsimp only
      have hroll : ∀ stH : WState, stH.settings = st.settings →
          stH.trace = st.trace →
          ((∃ st1 r, emitSymbol stH = .ok (st1, r) ∧
            (∀ e ∈ st1.trace, e ∈ st.trace ∨ ∃ h2 p,
              e.2 = h2 + p * st.settings.fec_syms ∧
              h2 < st.settings.fec_syms ∧ p < (FecOrder.Hamming x).large_bits)) ∨
            emitSymbol stH = .error .assertFailed) := by
        intro stH hS hT
        unfold emitSymbol
        by_cases hfull : stH.hamming_symbol ≥ stH.settings.fec_syms
        · rw [if_pos hfull]
          rcases new_file_cases stH with herr | ⟨st3, r, hnf, e1, e2, e3, e4⟩
          · rw [herr]
            right
            rfl
          · rw [hnf]
            cases r with
            | error e =>
                left
                refine ⟨st3, .error e, rfl, ?_⟩
                intro e2m hm
                left
                rw [e4, hT] at hm
                exact hm
            | ok u =>
                cases u
                obtain ⟨st4, hrun, d1, d2, d3, d4, d5, d6, d7, d8, d9, d10, d11⟩ :=
                  emitRest_spec { st3 with hamming_symbol := 0 }
                    (by
                      show 0 < ({ st3 with hamming_symbol := 0 } : WState).settings.fec_syms
                      rw [show ({ st3 with hamming_symbol := 0 } : WState).settings =
                        st3.settings from rfl, e1, hS]
                      exact hsyms)
                left
                refine ⟨st4, .ok (), hrun, ?_⟩
                intro em hm
                rw [d10] at hm
                rcases List.mem_append.mp hm with hm1 | hm2
                · left
                  have : ({ st3 with hamming_symbol := 0 } : WState).trace = st.trace := by
                    rw [show ({ st3 with hamming_symbol := 0 } : WState).trace =
                      st3.trace from rfl, e4, hT]
                  rw [this] at hm1
                  exact hm1
                · right
                  obtain ⟨sh, hsh, hem⟩ := List.mem_map.mp hm2
                  have hSS : ({ st3 with hamming_symbol := 0 } : WState).settings =
                      st.settings := by
                    rw [show ({ st3 with hamming_symbol := 0 } : WState).settings =
                      st3.settings from rfl, e1, hS]
                  rw [hSS] at hsh
                  rw [List.mem_reverse, List.mem_range] at hsh
                  refine ⟨0, st.settings.fec_order.large_bits - 1 - sh, ?_, hsyms,
                    by rw [← hfec]; omega⟩
                  rw [← hem]
                  show ({ st3 with hamming_symbol := 0 } : WState).hamming_symbol +
                    (({ st3 with hamming_symbol := 0 } : WState).settings.fec_order.large_bits
                      - 1 - sh) *
                      ({ st3 with hamming_symbol := 0 } : WState).settings.fec_syms = _
                  rw [hSS]
        · rw [if_neg hfull]
          push_neg at hfull
          obtain ⟨st4, hrun, d1, d2, d3, d4, d5, d6, d7, d8, d9, d10, d11⟩ :=
            emitRest_spec stH hfull
          left
          refine ⟨st4, .ok (), hrun, ?_⟩
          intro em hm
          rw [d10] at hm
          rcases List.mem_append.mp hm with hm1 | hm2
          · left
            rw [hT] at hm1
            exact hm1
          · right
            obtain ⟨sh, hsh, hem⟩ := List.mem_map.mp hm2
            rw [hS] at hsh
            rw [List.mem_reverse, List.mem_range] at hsh
            refine ⟨stH.hamming_symbol, st.settings.fec_order.large_bits - 1 - sh, ?_,
              ?_, by rw [← hfec]; omega⟩
            · rw [← hem]
              show stH.hamming_symbol +
                (stH.settings.fec_order.large_bits - 1 - sh) * stH.settings.fec_syms = _
              rw [hS]
            · rw [← hS]
              exact hfull
      exact hroll _ rfl rfl
    · rw [if_neg hmark]
      left
      exact ⟨_, _, rfl, fun e he => Or.inl he⟩
  have hused : st.settings.used_bits ≤ st.settings.total_bits :=
    Nat.div_mul_le_self _ _
  refine ⟨?_, hused, ?_⟩
  · rcases master with ⟨st1, r, heq, _⟩ | herr
    · rw [heq]
      exact fun h => Except.noConfusion h
    · rw [herr]
      intro h
      have := Except.error.inj h
      exact RunPanic.noConfusion this
  · intro st1 r heq e he
    rcases master with ⟨st1b, rb, heqb, hmem⟩ | herr
    · rw [heqb] at heq
      have hp := Except.ok.inj heq
      have hst : st1b = st1 := congrArg Prod.fst hp
      rcases hmem e (by rw [hst]; exact he) with h1 | ⟨h2, p, hE, hh2, hp2⟩
      · exact Or.inl h1
      · right
        obtain ⟨hu, ht⟩ := seq_lt_total st.settings h2 p hh2 hp2
        rw [← hE] at hu ht
        exact ⟨hu, ht, seq2xy_ne_none _ _ ht⟩
    · rw [herr] at heq
      exact Except.noConfusion heq

/-- Witness for C9 on the tiny Hamming(2) geometry. -/
theorem C9_witness :
    write_payloadbit 1 (OptarWriter.new tinySettings none alwaysOk) ≠
      .error .unwrapFailed ∧
    (OptarWriter.new tinySettings none alwaysOk).settings.used_bits ≤
      (OptarWriter.new tinySettings none alwaysOk).settings.total_bits ∧
    (∀ st1 r, write_payloadbit 1 (OptarWriter.new tinySettings none alwaysOk) =
        .ok (st1, r) →
      ∀ e ∈ st1.trace, e ∈ (OptarWriter.new tinySettings none alwaysOk).trace ∨
        (e.2 < (OptarWriter.new tinySettings none alwaysOk).settings.used_bits ∧
          e.2 < (OptarWriter.new tinySettings none alwaysOk).settings.total_bits ∧
          (OptarWriter.new tinySettings none alwaysOk).settings.seq2xy e.2 ≠ none)) :=
  C9_write_channelbit_in_range (OptarWriter.new tinySettings none alwaysOk) 1 2
    (by decide) (by decide)

/-- Mapping over a reversed initial segment counts down. -/
theorem map_reverse_range {α : Type} (f : Nat → α) (n : Nat) :
    ((List.range n).reverse).map f = (List.range n).map (fun p => f (n - 1 - p)) := by
  apply List.ext_getElem
  · simp
  · intro i h1 h2
    simp

set_option maxRecDepth 8000 in
/-- **C3** amended: (general part) when the accumulator's marker bit reaches
`small_bits` on a page with room (`hamming_symbol < fec_syms`), the
completed symbol is encoded as `hamming(accu, x)` and its bit at position
`p` (0 = most significant of the `large_bits`-wide codeword) is written at
sequence index `hamming_symbol + p * fec_syms`, after which the accumulator
resets to 1 and the symbol index advances; (scenario) with Hamming(4) and
default geometry, feeding the single byte 0xA5 writes as the only 16
channel pixels exactly the bits of `hamming 1320 4` (register
`0b10100101000`: the byte followed by the three zero pad bits that complete
the 11-bit symbol — not the claim's `0b10100101_0`), most significant
first, at sequence indices `0, fec_syms, 2*fec_syms, …` with
`fec_syms = 192591`, each resolving to a valid coordinate. -/
theorem C3_amended :
    (∀ (st : WState) (bit x : Nat), st.settings.fec_order = .Hamming x →
      st.hamming_symbol < st.settings.fec_syms →
      ((st.accu <<< 1) ||| (bit &&& 1)) &&& (1 <<< st.settings.fec_order.small_bits) ≠ 0 →
      ∃ st', write_payloadbit bit st = .ok (st', .ok ()) ∧
        st'.accu = 1 ∧ st'.hamming_symbol = st.hamming_symbol + 1 ∧
        st'.trace = st.trace ++ (List.range (FecOrder.Hamming x).large_bits).map
          (fun p => (hamming ((st.accu <<< 1) ||| (bit &&& 1)) x >>>
              ((FecOrder.Hamming x).large_bits - 1 - p),
            st.hamming_symbol + p * st.settings.fec_syms))) ∧
    (feed_data [165] (OptarWriter.new hamming4Settings none alwaysOk)).map
        (fun pr => (pr.1.trace.map (fun e => (e.1 &&& 1, e.2)), pr.2.isOk)) =
      .ok ((List.range 16).map
        (fun p => ((hamming 1320 4 >>> (15 - p)) &&& 1, p * 192591)), true) ∧
    hamming4Settings.fec_syms = 192591 ∧
    (∀ p, p < 16 → hamming4Settings.seq2xy (p * 192591) ≠ none) := by
  refine ⟨?_, by decide, by decide, by decide⟩
  intro st bit x hfec hh hmark
  unfold write_payloadbit
  dsimp only
  rw [if_pos hmark, hfec]
  dsimp only
  obtain ⟨st4, hrun, d1, d2, d3, d4, d5, d6, d7, d8, d9, d10, d11⟩ :=
    emitRest_spec { st with accu := hamming ((st.accu <<< 1) ||| (bit &&& 1)) x }
      (show st.hamming_symbol < st.settings.fec_syms from hh)
  rw [show emitSymbol { st with accu := hamming ((st.accu <<< 1) ||| (bit &&& 1)) x } =
      emitRest { st with accu := hamming ((st.accu <<< 1) ||| (bit &&& 1)) x } by
    unfold emitSymbol
    rw [if_neg (show ¬ ({ st with
      accu := hamming ((st.accu <<< 1) ||| (bit &&& 1)) x } : WState).hamming_symbol ≥
        ({ st with accu := hamming ((st.accu <<< 1) ||| (bit &&& 1)) x } :
          WState).settings.fec_syms by
      show ¬ st.hamming_symbol ≥ st.settings.fec_syms
      omega)]]
  refine ⟨st4, hrun, d2, d3, ?_⟩
  rw [d10]
  show st.trace ++ ((List.range st.settings.fec_order.large_bits).reverse).map
      (fun sh => (hamming ((st.accu <<< 1) ||| (bit &&& 1)) x >>> sh,
        st.hamming_symbol +
          (st.settings.fec_order.large_bits - 1 - sh) * st.settings.fec_syms)) = _
  rw [hfec, map_reverse_range]
  congr 1
  apply List.map_congr_left
  intro p hp
  rw [List.mem_range] at hp
  show (hamming ((st.accu <<< 1) ||| (bit &&& 1)) x >>>
      ((FecOrder.Hamming x).large_bits - 1 - p),
    st.hamming_symbol + ((FecOrder.Hamming x).large_bits - 1 -
      ((FecOrder.Hamming x).large_bits - 1 - p)) * st.settings.fec_syms) = _
  rw [show (FecOrder.Hamming x).large_bits - 1 -
    ((FecOrder.Hamming x).large_bits - 1 - p) = p by omega]

/-- Witness for the general part of the amended C3, on the tiny geometry:
the first payload bit completes a symbol. -/
theorem C3_amended_witness :
    ∃ st', write_payloadbit 1 (OptarWriter.new tinySettings none alwaysOk) =
        .ok (st', .ok ()) ∧
      st'.accu = 1 ∧
      st'.hamming_symbol = (OptarWriter.new tinySettings none alwaysOk).hamming_symbol + 1 ∧
      st'.trace = (OptarWriter.new tinySettings none alwaysOk).trace ++
        (List.range (FecOrder.Hamming 2).large_bits).map
          (fun p => (hamming (((OptarWriter.new tinySettings none alwaysOk).accu <<< 1) |||
              (1 &&& 1)) 2 >>> ((FecOrder.Hamming 2).large_bits - 1 - p),
            (OptarWriter.new tinySettings none alwaysOk).hamming_symbol +
              p * (OptarWriter.new tinySettings none alwaysOk).settings.fec_syms)) :=
  C3_amended.1 (OptarWriter.new tinySettings none alwaysOk) 1 2
    (by decide) (by decide) (by decide)

/-- An even number ORed with 1 is its successor. -/
theorem or_one_of_even (v : Nat) (h : v % 2 = 0) : v ||| 1 = v + 1 := by
  apply Nat.eq_of_testBit_eq
  intro i
  rw [Nat.testBit_or]
  cases i with
  | zero =>
      have h1 : (v + 1) % 2 = 1 := by omega
      simp [Nat.testBit_to_div_mod, h, h1]
  | succ i =>
      have h1 : (v + 1) / 2 = v / 2 := by omega
      have h2 : 2 ^ (i + 1) = 2 * 2 ^ i := by rw [Nat.pow_succ, Nat.mul_comm]
      simp only [Nat.testBit_to_div_mod, h2, ← Nat.div_div_eq_div_mul, h1]
      simp

/-- The accumulator shift-or step is plain arithmetic. -/
theorem accu_shift_or (a bit : Nat) : (a <<< 1) ||| (bit &&& 1) = 2 * a + (bit &&& 1) := by
  have hsh : a <<< 1 = 2 * a := by rw [Nat.shiftLeft_eq, Nat.pow_one, Nat.mul_comm]
  have hb := Nat.and_one_is_mod bit
  rcases Nat.mod_two_eq_zero_or_one bit with h | h
  · rw [hb, h, Nat.or_zero, hsh, Nat.add_zero]
  · rw [hb, h, hsh, or_one_of_even (2 * a) (by omega)]

/-- Small values have no marker bit. -/
theorem and_marker_zero (v n : Nat) (h : v < 2 ^ n) : v &&& (1 <<< n) = 0 := by
  rw [Nat.one_shiftLeft, Nat.and_two_pow, Nat.testBit_eq_false_of_lt h]
  simp

/-- A value in `[2^n, 2^(n+1))` has its marker bit set. -/
theorem and_marker_ne_zero (v n : Nat) (h1 : 2 ^ n ≤ v) (h2 : v < 2 ^ (n + 1)) :
    v &&& (1 <<< n) ≠ 0 := by
  rw [Nat.one_shiftLeft, Nat.and_two_pow]
  have hv : v / 2 ^ n = 1 := by
    apply Nat.div_eq_of_lt_le
    · rw [Nat.one_mul]
      exact h1
    · rw [show ((1 : Nat) + 1) * 2 ^ n = 2 ^ (n + 1) by
        rw [Nat.pow_succ, Nat.mul_comm]]
      exact h2
  have ht : v.testBit n = true := by
    rw [Nat.testBit_to_div_mod, hv]
    rfl
  rw [ht]
  simp only [Bool.toNat_true, Nat.one_mul]
  positivity

/-- Successor arithmetic for div/mod inside a block. -/
theorem mod_div_succ_lt (n sb : Nat) (hsb : 0 < sb) (h : n % sb + 1 < sb) :
    (n + 1) % sb = n % sb + 1 ∧ (n + 1) / sb = n / sb := by
  obtain ⟨q, r, hqr, hr⟩ : ∃ q r, n = sb * q + r ∧ r < sb :=
    ⟨n / sb, n % sb, (Nat.div_add_mod n sb).symm, Nat.mod_lt n hsb⟩
  have hm : n % sb = r := by rw [hqr, Nat.mul_add_mod, Nat.mod_eq_of_lt hr]
  have hd : n / sb = q := by
    rw [hqr, Nat.mul_add_div hsb, Nat.div_eq_of_lt hr, Nat.add_zero]
  have h1 : n + 1 = sb * q + (r + 1) := by rw [hqr, Nat.add_assoc]
  have hr1 : r + 1 < sb := by omega
  constructor
  · rw [h1, Nat.mul_add_mod, Nat.mod_eq_of_lt hr1, hm]
  · rw [h1, Nat.mul_add_div hsb, Nat.div_eq_of_lt hr1, Nat.add_zero, hd]

/-- Successor arithmetic for div/mod at a block boundary. -/
theorem mod_div_succ_eq (n sb : Nat) (hsb : 0 < sb) (h : n % sb + 1 = sb) :
    (n + 1) % sb = 0 ∧ (n + 1) / sb = n / sb + 1 := by
  obtain ⟨q, r, hqr, hr⟩ : ∃ q r, n = sb * q + r ∧ r < sb :=
    ⟨n / sb, n % sb, (Nat.div_add_mod n sb).symm, Nat.mod_lt n hsb⟩
  have hm : n % sb = r := by rw [hqr, Nat.mul_add_mod, Nat.mod_eq_of_lt hr]
  have hd : n / sb = q := by
    rw [hqr, Nat.mul_add_div hsb, Nat.div_eq_of_lt hr, Nat.add_zero]
  have h1 : n + 1 = sb * (q + 1) := by
    have hr1 : r + 1 = sb := by omega
    rw [hqr, Nat.mul_succ, Nat.add_assoc, hr1]
  constructor
  · rw [h1, Nat.mul_mod_right]
  · rw [h1, Nat.mul_div_cancel_left _ hsb, hd]

/-- Replaying a concatenated trace. -/
theorem applyTrace_append (s : Settings) (l1 l2 : List (Nat × Nat))
    (buf : Nat → Nat → Nat) :
    applyTrace s (l1 ++ l2) buf = applyTrace s l2 (applyTrace s l1 buf) := by
  induction l1 generalizing buf with
  | nil => rfl
  | cons e l ih => rw [List.cons_append, applyTrace_cons, applyTrace_cons, ih]

/-- `write_payloadbit` when the marker does not reach `small_bits`. -/
theorem write_payloadbit_nocomplete (bit : Nat) (st : WState)
    (hmark : ¬ (((st.accu <<< 1) ||| (bit &&& 1)) &&&
      (1 <<< st.settings.fec_order.small_bits) ≠ 0)) :
    write_payloadbit bit st =
      .ok ({ st with accu := (st.accu <<< 1) ||| (bit &&& 1) }, .ok ()) := by
  unfold write_payloadbit
  dsimp only
  rw [if_neg hmark]

/-- `write_payloadbit` on symbol completion with room on the page. -/
theorem write_payloadbit_complete_nofull (bit x : Nat) (st : WState)
    (hfec : st.settings.fec_order = .Hamming x)
    (hmark : ((st.accu <<< 1) ||| (bit &&& 1)) &&&
      (1 <<< st.settings.fec_order.small_bits) ≠ 0)
    (hh : st.hamming_symbol < st.settings.fec_syms) :
    ∃ st', write_payloadbit bit st = .ok (st', .ok ()) ∧
      st'.settings = st.settings ∧ st'.accu = 1 ∧
      st'.hamming_symbol = st.hamming_symbol + 1 ∧
      st'.file_number = st.file_number ∧ st'.outputs = st.outputs ∧
      st'.ioCount = st.ioCount ∧ st'.ioOracle = st.ioOracle ∧
      st'.reformats = st.reformats ∧ st'.base_filename = st.base_filename ∧
      ∃ tr, st'.trace = st.trace ++ tr ∧
        st'.buf = applyTrace st.settings tr st.buf := by
  unfold write_payloadbit
  dsimp only
  rw [if_pos hmark, hfec]
  dsimp only
  obtain ⟨st4, hrun, d1, d2, d3, d4, d5, d6, d7, d8, d9, d10, d11⟩ :=
    emitRest_spec { st with accu := hamming ((st.accu <<< 1) ||| (bit &&& 1)) x }
      (show st.hamming_symbol < st.settings.fec_syms from hh)
  rw [show emitSymbol { st with accu := hamming ((st.accu <<< 1) ||| (bit &&& 1)) x } =
      emitRest { st with accu := hamming ((st.accu <<< 1) ||| (bit &&& 1)) x } by
    unfold emitSymbol
    rw [if_neg (show ¬ ({ st with
      accu := hamming ((st.accu <<< 1) ||| (bit &&& 1)) x } : WState).hamming_symbol ≥
        ({ st with accu := hamming ((st.accu <<< 1) ||| (bit &&& 1)) x } :
          WState).settings.fec_syms by
      show ¬ st.hamming_symbol ≥ st.settings.fec_syms
      omega)]]
  exact ⟨st4, hrun, d1, d2, d3, d4, d5, d6, d7, d8, d9, ⟨_, d10, d11⟩⟩

/-- One payload bit preserves the packer invariant while the page has room. -/
theorem packInv_step (s : Settings) (x : Nat) (hfec : s.fec_order = .Hamming x)
    (hsb : 1 ≤ s.fec_order.small_bits) (n : Nat) (st : WState) (bit : Nat)
    (hinv : packInv s n st)
    (hcap : (n + 1) / s.fec_order.small_bits ≤ s.fec_syms) :
    ∃ st', write_payloadbit bit st = .ok (st', .ok ()) ∧ packInv s (n + 1) st' := by
  obtain ⟨i1, i2, i3, i4, i5, i6, i7, i8, i9, i10⟩ := hinv
  have hacc : (st.accu <<< 1) ||| (bit &&& 1) = 2 * st.accu + (bit &&& 1) :=
    accu_shift_or st.accu bit
  have hb1 : bit &&& 1 ≤ 1 := by
    rw [Nat.and_one_is_mod]
    omega
  have he1 : (2 : Nat) ^ (n % s.fec_order.small_bits + 1) =
      2 * 2 ^ (n % s.fec_order.small_bits) := by
    rw [Nat.pow_succ, Nat.mul_comm]
  have he2 : (2 : Nat) ^ (n % s.fec_order.small_bits + 2) =
      2 * 2 ^ (n % s.fec_order.small_bits + 1) := by
    rw [show n % s.fec_order.small_bits + 2 = (n % s.fec_order.small_bits + 1) + 1 by omega,
      Nat.pow_succ, Nat.mul_comm]
  have hlow : 2 ^ (n % s.fec_order.small_bits + 1) ≤
      (st.accu <<< 1) ||| (bit &&& 1) := by
    rw [hacc]
    omega
  have hhigh : (st.accu <<< 1) ||| (bit &&& 1) <
      2 ^ (n % s.fec_order.small_bits + 2) := by
    rw [hacc]
    omega
  by_cases hc : n % s.fec_order.small_bits + 1 < s.fec_order.small_bits
  · -- no completion
    obtain ⟨hm, hd⟩ := mod_div_succ_lt n s.fec_order.small_bits (by omega) hc
    have hmark : ¬ (((st.accu <<< 1) ||| (bit &&& 1)) &&&
        (1 <<< st.settings.fec_order.small_bits) ≠ 0) := by
      rw [i1]
      intro hne
      apply hne
      apply and_marker_zero
      calc (st.accu <<< 1) ||| (bit &&& 1) < 2 ^ (n % s.fec_order.small_bits + 2) := hhigh
        _ ≤ 2 ^ s.fec_order.small_bits := Nat.pow_le_pow_right (by omega) (by omega)
    rw [write_payloadbit_nocomplete bit st hmark]
    refine ⟨_, rfl, i1, i2, i3, i4, i5, i6, ?_, ?_, ?_, i10⟩
    · show st.hamming_symbol = (n + 1) / s.fec_order.small_bits
      rw [hd, i7]
    · show 2 ^ ((n + 1) % s.fec_order.small_bits) ≤ (st.accu <<< 1) ||| (bit &&& 1)
      rw [hm]
      exact hlow
    · show (st.accu <<< 1) ||| (bit &&& 1) < 2 ^ ((n + 1) % s.fec_order.small_bits + 1)
      rw [hm]
      exact hhigh
  · -- completion
    have hc2 : n % s.fec_order.small_bits + 1 = s.fec_order.small_bits := by
      have := Nat.mod_lt n (show 0 < s.fec_order.small_bits by omega)
      omega
    obtain ⟨hm, hd⟩ := mod_div_succ_eq n s.fec_order.small_bits (by omega) hc2
    have hmark : ((st.accu <<< 1) ||| (bit &&& 1)) &&&
        (1 <<< st.settings.fec_order.small_bits) ≠ 0 := by
      rw [i1]
      apply and_marker_ne_zero
      · rw [← hc2]
        exact hlow
      · rw [← hc2]
        exact hhigh
    have hfull : st.hamming_symbol < st.settings.fec_syms := by
      rw [i1, i7]
      rw [hd] at hcap
      omega
    obtain ⟨st', hrun, d1, d2, d3, d4, d5, d6, d7, d8, d9, tr, d10, d11⟩ :=
      write_payloadbit_complete_nofull bit x st (by rw [i1]; exact hfec) hmark hfull
    refine ⟨st', hrun, ?_, ?_, ?_, ?_, ?_, ?_, ?_, ?_, ?_, ?_⟩
    · rw [d1, i1]
    · rw [d4, i2]
    · rw [d8, i3]
    · rw [d5, i4]
    · rw [d6, i5]
    · rw [d7, i6]
    · rw [d3, i7, hd]
    · rw [d2, hm]
      exact Nat.le_refl 1
    · rw [d2, hm]
      omega
    · rw [d11, i10, ← i1, ← applyTrace_append, ← d10, i1]

/-- Unfolding lemmas for the driver loops. -/
theorem bitsLoop_cons (b : Nat) (rest : List Nat) (st : WState) :
    bitsLoop (b :: rest) st =
      (match write_payloadbit b st with
        | Except.error p => Except.error p
        | Except.ok (st1, Except.error e) => Except.ok (st1, Except.error e)
        | Except.ok (st1, Except.ok ()) => bitsLoop rest st1) := rfl

theorem feedLoop_cons (c : Nat) (rest : List Nat) (st : WState) :
    feedLoop (c :: rest) st =
      (match write_byte c st with
        | Except.error p => Except.error p
        | Except.ok (st1, r) => feedLoop rest st1) := rfl

theorem padLoop_succ (k : Nat) (st : WState) :
    padLoop (k + 1) st =
      (match write_payloadbit 0 st with
        | Except.error p => Except.error p
        | Except.ok (st1, r) => padLoop k st1) := rfl

/-- A whole byte preserves the packer invariant. -/
theorem bitsLoop_inv (s : Settings) (x : Nat) (hfec : s.fec_order = .Hamming x)
    (hsb : 1 ≤ s.fec_order.small_bits) (bs : List Nat) : ∀ (st : WState) (n : Nat),
    packInv s n st → (n + bs.length) / s.fec_order.small_bits ≤ s.fec_syms →
    ∃ st', bitsLoop bs st = .ok (st', .ok ()) ∧ packInv s (n + bs.length) st' := by
  induction bs with
  | nil =>
      intro st n hinv hcap
      exact ⟨st, rfl, hinv⟩
  | cons b rest ih =>
      intro st n hinv hcap
      rw [List.length_cons] at hcap
      obtain ⟨st1, hw, hinv1⟩ := packInv_step s x hfec hsb n st b hinv
        (le_trans (Nat.div_le_div_right (by omega)) hcap)
      rw [bitsLoop_cons, hw]
      obtain ⟨st', hrun, hinv'⟩ := ih st1 (n + 1) hinv1
        (by rw [show n + 1 + rest.length = n + (rest.length + 1) by omega]; exact hcap)
      refine ⟨st', hrun, ?_⟩
      rw [List.length_cons, show n + (rest.length + 1) = n + 1 + rest.length by omega]
      exact hinv'

/-- A byte feeds eight payload bits. -/
theorem write_byte_inv (s : Settings) (x : Nat) (hfec : s.fec_order = .Hamming x)
    (hsb : 1 ≤ s.fec_order.small_bits) (c : Nat) (st : WState) (n : Nat)
    (hinv : packInv s n st)
    (hcap : (n + 8) / s.fec_order.small_bits ≤ s.fec_syms) :
    ∃ st', write_byte c st = .ok (st', .ok ()) ∧ packInv s (n + 8) st' := by
  have h8 : ((List.range 8).reverse.map (fun bit => c >>> bit)).length = 8 := by simp
  obtain ⟨st', hrun, hinv'⟩ := bitsLoop_inv s x hfec hsb
    ((List.range 8).reverse.map (fun bit => c >>> bit)) st n hinv (by rw [h8]; exact hcap)
  exact ⟨st', hrun, by rw [h8] at hinv'; exact hinv'⟩

/-- The byte loop preserves the packer invariant. -/
theorem feedLoop_inv (s : Settings) (x : Nat) (hfec : s.fec_order = .Hamming x)
    (hsb : 1 ≤ s.fec_order.small_bits) (input : List Nat) : ∀ (st : WState) (n : Nat),
    packInv s n st →
    (n + 8 * input.length) / s.fec_order.small_bits ≤ s.fec_syms →
    ∃ st', feedLoop input st = .ok st' ∧ packInv s (n + 8 * input.length) st' := by
  induction input with
  | nil =>
      intro st n hinv hcap
      exact ⟨st, rfl, by rw [show n + 8 * ([] : List Nat).length = n by simp]; exact hinv⟩
  | cons c rest ih =>
      intro st n hinv hcap
      rw [List.length_cons] at hcap
      obtain ⟨st1, hw, hinv1⟩ := write_byte_inv s x hfec hsb c st n hinv
        (le_trans (Nat.div_le_div_right (by omega)) hcap)
      rw [feedLoop_cons, hw]
      obtain ⟨st', hrun, hinv'⟩ := ih st1 (n + 8) hinv1
        (le_trans (Nat.div_le_div_right (by omega)) hcap)
      refine ⟨st', hrun, ?_⟩
      rw [List.length_cons, show n + 8 * (rest.length + 1) = n + 8 + 8 * rest.length by omega]
      exact hinv'

/-- The flush-padding loop preserves the packer invariant. -/
theorem padLoop_inv (s : Settings) (x : Nat) (hfec : s.fec_order = .Hamming x)
    (hsb : 1 ≤ s.fec_order.small_bits) (k : Nat) : ∀ (st : WState) (n : Nat),
    packInv s n st → (n + k) / s.fec_order.small_bits ≤ s.fec_syms →
    ∃ st', padLoop k st = .ok st' ∧ packInv s (n + k) st' := by
  induction k with
  | zero =>
      intro st n hinv hcap
      exact ⟨st, rfl, hinv⟩
  | succ k ih =>
      intro st n hinv hcap
      obtain ⟨st1, hw, hinv1⟩ := packInv_step s x hfec hsb n st 0 hinv
        (le_trans (Nat.div_le_div_right (by omega)) hcap)
      rw [padLoop_succ, hw]
      obtain ⟨st', hrun, hinv'⟩ := ih st1 (n + 1) hinv1
        (by rw [show n + 1 + k = n + (k + 1) by omega]; exact hcap)
      exact ⟨st', hrun, by rw [show n + (k + 1) = n + 1 + k by omega]; exact hinv'⟩

theorem feed_data_eq (input : List Nat) (st : WState) :
    feed_data input st =
      (match feedLoop input st with
        | Except.error p => Except.error p
        | Except.ok st1 =>
          match padLoop (st1.settings.fec_order.small_bits - 1) st1 with
          | Except.error p => Except.error p
          | Except.ok st2 => Except.ok (write_output st2)) := rfl

/-- **C10**: in a run whose data fits on a single page (the number of
completed symbols, `(8*len + small_bits - 1) / small_bits`, is at most
`fec_syms`, so `new_file` is never invoked), `feed_data` succeeds and the
single page it persists at the end is the constructor's plain all-white
buffer with only the traced channel pixels written: the page counter is
still 0, `reformat_buffer` (hence border and crosses) never executed, and
exactly one output was persisted, whose buffer is
`applyTrace` of the run's channel-bit trace over the all-white canvas. -/
theorem C10_single_page_plain_buffer (s : Settings) (x : Nat) (base : Option String)
    (input : List Nat) (hfec : s.fec_order = .Hamming x)
    (hsb : 1 ≤ s.fec_order.small_bits)
    (hfit : (8 * input.length + (s.fec_order.small_bits - 1)) /
      s.fec_order.small_bits ≤ s.fec_syms) :
    ∃ stf, feed_data input (OptarWriter.new s base alwaysOk) = .ok (stf, .ok ()) ∧
      stf.file_number = 0 ∧ stf.reformats = 0 ∧
      stf.outputs = [(outName stf, stf.buf)] ∧
      stf.buf = applyTrace s stf.trace whiteBuf := by
  have hinv0 : packInv s 0 (OptarWriter.new s base alwaysOk) := by
    refine ⟨rfl, rfl, rfl, rfl, rfl, rfl, ?_, ?_, ?_, rfl⟩
    · rw [Nat.zero_div]
      rfl
    · rw [Nat.zero_mod, Nat.pow_zero]
      exact Nat.le_refl 1
    · rw [Nat.zero_mod]
      show (1 : Nat) < 2 ^ (0 + 1)
      decide
  obtain ⟨st1, hfeed, hinv1⟩ := feedLoop_inv s x hfec hsb input
    (OptarWriter.new s base alwaysOk) 0 hinv0
    (le_trans (Nat.div_le_div_right (by omega)) hfit)
  obtain ⟨st2, hpad, hinv2⟩ := padLoop_inv s x hfec hsb
    (s.fec_order.small_bits - 1) st1 (0 + 8 * input.length) hinv1
    (by rw [Nat.zero_add]; exact hfit)
  obtain ⟨j1, j2, j3, j4, j5, j6, j7, j8, j9, j10⟩ := hinv2
  have hw : write_output st2 =
      ({ st2 with ioCount := st2.ioCount + 1,
                  outputs := st2.outputs ++ [(outName st2, st2.buf)] }, .ok ()) :=
    write_output_ok st2 (by rw [j6])
  have hrun : feed_data input (OptarWriter.new s base alwaysOk) =
      .ok ({ st2 with
             ioCount := st2.ioCount + 1,
             outputs := st2.outputs ++ [(outName st2, st2.buf)] }, .ok ()) := by
    rw [feed_data_eq, hfeed]
    show (match padLoop (st1.settings.fec_order.small_bits - 1) st1 with
      | Except.error p => Except.error p
      | Except.ok st2 => Except.ok (write_output st2)) = _
    rw [show st1.settings.fec_order.small_bits - 1 = s.fec_order.small_bits - 1 by
      rw [hinv1.1], hpad]
    show Except.ok (write_output st2) = _
    rw [hw]
  refine ⟨_, hrun, j2, j3, ?_, ?_⟩
  · show st2.outputs ++ [(outName st2, st2.buf)] = _
    rw [j4, List.nil_append]
    rfl
  · show st2.buf = applyTrace s st2.trace whiteBuf
    exact j10

/-- Witness for C10: the single byte 0xA5 with Hamming(4) default geometry
fits on one page. -/
theorem C10_witness :
    ∃ stf, feed_data [165] (OptarWriter.new hamming4Settings none alwaysOk) =
        .ok (stf, .ok ()) ∧
      stf.file_number = 0 ∧ stf.reformats = 0 ∧
      stf.outputs = [(outName stf, stf.buf)] ∧
      stf.buf = applyTrace hamming4Settings stf.trace whiteBuf :=
  C10_single_page_plain_buffer hamming4Settings 4 none [165] (by decide) (by decide)
    (by decide)


/-- Forward direction of the `seq2xy` bijection: every in-range sequence
index resolves to an in-bounds non-fiducial coordinate, and the
verification-side inverse `xy2seq` recovers the index. -/
theorem seq2xy_forward (s : Settings) (hc : 2 * s.chalf < s.cpitch)
    (seq : Nat) (hseq : seq < s.total_bits) :
    ∃ x y, s.seq2xy seq = some (x, y) ∧ x < s.data_width ∧ y < s.data_height ∧
      s.is_cross x y = false ∧ s.xy2seq x y = seq := by
  have hc0 : 0 < s.cpitch := by omega
  have hg0 : 0 < s.gap_width := by unfold Settings.gap_width; omega
  have hpitch : s.cpitch = 2 * s.chalf + s.gap_width := by
    unfold Settings.gap_width; omega
  have hrh : s.rep_height = s.cpitch := by
    unfold Settings.rep_height Settings.narrow_height Settings.wide_height
      Settings.gap_width
    omega
  have hww : s.wide_width = s.data_width := by
    unfold Settings.wide_width Settings.width
    omega
  have hnh : s.narrow_height = 2 * s.chalf := rfl
  have hnp : s.narrow_pixels = 2 * s.chalf * s.narrow_width := rfl
  have hwp : s.wide_pixels = s.gap_width * s.wide_width := rfl
  have hrp : s.rep_pixels = s.narrow_pixels + s.wide_pixels := rfl
  have hT : s.total_bits = s.rep_pixels * (s.ycrosses - 1) + s.narrow_pixels := rfl
  have hnw : s.narrow_width = s.gap_width * (s.xcrosses - 1) := rfl
  have hH : s.data_height = s.cpitch * (s.ycrosses - 1) + 2 * s.chalf := rfl
  have hWd : s.data_width = s.cpitch * (s.xcrosses - 1) + 2 * s.chalf := rfl
  have hrp0 : 0 < s.rep_pixels := by
    rcases Nat.eq_zero_or_pos s.rep_pixels with h0 | h0
    · have h1 : s.narrow_pixels = 0 := by omega
      rw [hT, h0, Nat.zero_mul, h1] at hseq
      omega
    · exact h0
  obtain ⟨rep, hrep⟩ : ∃ r, seq / s.rep_pixels = r := ⟨_, rfl⟩
  obtain ⟨sq1, hsq1⟩ : ∃ t, seq % s.rep_pixels = t := ⟨_, rfl⟩
  have hsplit : s.rep_pixels * rep + sq1 = seq := by
    rw [← hrep, ← hsq1]; exact Nat.div_add_mod seq s.rep_pixels
  have hm : sq1 < s.rep_pixels := by
    rw [← hsq1]; exact Nat.mod_lt seq hrp0
  rcases Nat.lt_or_ge sq1 s.narrow_pixels with hbr | hbr
  · -- first, narrow strip of the pair
    have hnp0 : 0 < s.narrow_pixels := by omega
    have hnw0 : 0 < s.narrow_width := by
      rcases Nat.eq_zero_or_pos s.narrow_width with h0 | h0
      · rw [h0, Nat.mul_zero] at hnp; omega
      · exact h0
    obtain ⟨row, hrow⟩ : ∃ r, sq1 / s.narrow_width = r := ⟨_, rfl⟩
    obtain ⟨sq2, hsq2⟩ : ∃ t, sq1 % s.narrow_width = t := ⟨_, rfl⟩
    have hsplit2 : s.narrow_width * row + sq2 = sq1 := by
      rw [← hrow, ← hsq2]; exact Nat.div_add_mod sq1 s.narrow_width
    have hs2lt : sq2 < s.narrow_width := by
      rw [← hsq2]; exact Nat.mod_lt sq1 hnw0
    obtain ⟨gap, hgap⟩ : ∃ gp, sq2 / s.gap_width = gp := ⟨_, rfl⟩
    obtain ⟨sq3, hsq3⟩ : ∃ t, sq2 % s.gap_width = t := ⟨_, rfl⟩
    have hsplit3 : s.gap_width * gap + sq3 = sq2 := by
      rw [← hgap, ← hsq3]; exact Nat.div_add_mod sq2 s.gap_width
    have hs3lt : sq3 < s.gap_width := by
      rw [← hsq3]; exact Nat.mod_lt sq2 hg0
    have hrow_lt : row < 2 * s.chalf := by
      rw [← hrow]
      exact (Nat.div_lt_iff_lt_mul hnw0).mpr (by omega)
    have hgap_lt : gap < s.xcrosses - 1 := by
      rw [← hgap]
      refine (Nat.div_lt_iff_lt_mul hg0).mpr ?_
      rw [Nat.mul_comm, ← hnw]
      exact hs2lt
    have hrep_le : rep ≤ s.ycrosses - 1 := by
      by_contra hcon
      have h1 : (s.ycrosses - 1) + 1 ≤ rep := by omega
      have h2 := Nat.mul_le_mul_left s.rep_pixels h1
      rw [Nat.mul_succ] at h2
      omega
    have hxy : s.seq2xy seq =
        some (2 * s.chalf + gap * s.cpitch + sq3, s.cpitch * rep + row) := by
      unfold Settings.seq2xy
      rw [if_neg (by omega)]
      dsimp only
      rw [hsq1, hrep, if_neg (by omega), hsq2, hgap, hsq3, hrow, hrh]
    refine ⟨_, _, hxy, ?_, ?_, ?_, ?_⟩
    · rw [hWd]
      have h1 : gap + 1 ≤ s.xcrosses - 1 := hgap_lt
      have h2 := Nat.mul_le_mul_left s.cpitch h1
      rw [Nat.mul_succ] at h2
      have c1 : gap * s.cpitch = s.cpitch * gap := Nat.mul_comm _ _
      omega
    · rw [hH]
      have h2 := Nat.mul_le_mul_left s.cpitch hrep_le
      omega
    · have hxmod : (2 * s.chalf + gap * s.cpitch + sq3) % s.cpitch =
          2 * s.chalf + sq3 := by
        rw [show 2 * s.chalf + gap * s.cpitch + sq3 =
              s.cpitch * gap + (2 * s.chalf + sq3) by
            rw [Nat.mul_comm s.cpitch gap]; omega]
        rw [Nat.mul_add_mod]
        exact Nat.mod_eq_of_lt (by omega)
      have hxn : ¬ ((2 * s.chalf + gap * s.cpitch + sq3) % s.cpitch <
          2 * s.chalf) := by
        rw [hxmod]; omega
      unfold Settings.is_cross
      rw [decide_eq_false hxn, Bool.false_and]
    · have hrowc : row < s.cpitch := by omega
      have hyc : (s.cpitch * rep + row) / s.cpitch = rep := by
        rw [Nat.mul_add_div hc0, Nat.div_eq_of_lt hrowc, Nat.add_zero]
      have hyd : (s.cpitch * rep + row) % s.cpitch = row := by
        rw [Nat.mul_add_mod]
        exact Nat.mod_eq_of_lt hrowc
      unfold Settings.xy2seq
      dsimp only
      rw [hyc, hyd, if_pos hrow_lt]
      have hxsub : 2 * s.chalf + gap * s.cpitch + sq3 - 2 * s.chalf =
          s.cpitch * gap + sq3 := by
        rw [Nat.mul_comm s.cpitch gap]; omega
      have hs3c : sq3 < s.cpitch := by omega
      rw [hxsub, Nat.mul_add_div hc0, Nat.div_eq_of_lt hs3c, Nat.add_zero,
        Nat.mul_add_mod, Nat.mod_eq_of_lt hs3c]
      have c1 : rep * s.rep_pixels = s.rep_pixels * rep := Nat.mul_comm _ _
      have c2 : row * s.narrow_width = s.narrow_width * row := Nat.mul_comm _ _
      have c3 : gap * s.gap_width = s.gap_width * gap := Nat.mul_comm _ _
      omega
  · -- second, wide strip of the pair
    have hwp0 : 0 < s.wide_pixels := by omega
    have hww0 : 0 < s.wide_width := by
      rcases Nat.eq_zero_or_pos s.wide_width with h0 | h0
      · rw [h0, Nat.mul_zero] at hwp; omega
      · exact h0
    obtain ⟨sq2, hsq2⟩ : ∃ t, sq1 - s.narrow_pixels = t := ⟨_, rfl⟩
    obtain ⟨q, hq⟩ : ∃ qq, sq2 / s.wide_width = qq := ⟨_, rfl⟩
    obtain ⟨xv, hxv⟩ : ∃ t, sq2 % s.wide_width = t := ⟨_, rfl⟩
    have hsplitw : s.wide_width * q + xv = sq2 := by
      rw [← hq, ← hxv]; exact Nat.div_add_mod sq2 s.wide_width
    have hxvlt : xv < s.wide_width := by
      rw [← hxv]; exact Nat.mod_lt sq2 hww0
    have hsq2wp : sq2 < s.wide_pixels := by omega
    have hqg : q < s.gap_width := by
      rw [← hq]
      refine (Nat.div_lt_iff_lt_mul hww0).mpr ?_
      rw [← hwp]
      exact hsq2wp
    have hrep_lt : rep < s.ycrosses - 1 := by
      have h1 : s.rep_pixels * rep < s.rep_pixels * (s.ycrosses - 1) := by omega
      exact Nat.lt_of_mul_lt_mul_left h1
    have hxy : s.seq2xy seq =
        some (xv, s.cpitch * rep + s.narrow_height + q) := by
      unfold Settings.seq2xy
      rw [if_neg (by omega)]
      dsimp only
      rw [hsq1, hrep, if_pos hbr, hsq2, hq, hxv, hrh]
    refine ⟨_, _, hxy, ?_, ?_, ?_, ?_⟩
    · rw [← hww]; exact hxvlt
    · rw [hH, hnh]
      have h1 : rep + 1 ≤ s.ycrosses - 1 := hrep_lt
      have h2 := Nat.mul_le_mul_left s.cpitch h1
      rw [Nat.mul_succ] at h2
      omega
    · have hymod : (s.cpitch * rep + s.narrow_height + q) % s.cpitch =
          2 * s.chalf + q := by
        rw [hnh, Nat.add_assoc, Nat.mul_add_mod]
        exact Nat.mod_eq_of_lt (by omega)
      have hyn : ¬ ((s.cpitch * rep + s.narrow_height + q) % s.cpitch <
          2 * s.chalf) := by
        rw [hymod]; omega
      unfold Settings.is_cross
      rw [decide_eq_false hyn, Bool.and_false]
    · have hq_c : 2 * s.chalf + q < s.cpitch := by omega
      have hyc : (s.cpitch * rep + s.narrow_height + q) / s.cpitch = rep := by
        rw [hnh, Nat.add_assoc, Nat.mul_add_div hc0, Nat.div_eq_of_lt hq_c,
          Nat.add_zero]
      have hyd : (s.cpitch * rep + s.narrow_height + q) % s.cpitch =
          2 * s.chalf + q := by
        rw [hnh, Nat.add_assoc, Nat.mul_add_mod]
        exact Nat.mod_eq_of_lt hq_c
      unfold Settings.xy2seq
      dsimp only
      rw [hyc, hyd, if_neg (by omega)]
      rw [show 2 * s.chalf + q - 2 * s.chalf = q by omega]
      have c1 : rep * s.rep_pixels = s.rep_pixels * rep := Nat.mul_comm _ _
      have c2 : q * s.wide_width = s.wide_width * q := Nat.mul_comm _ _
      omega


/-- Backward direction of the `seq2xy` bijection: every in-bounds
non-fiducial coordinate is hit by `seq2xy` at the in-range index computed by
`xy2seq`. -/
theorem xy2seq_backward (s : Settings) (hc : 2 * s.chalf < s.cpitch)
    (x y : Nat) (hxW : x < s.data_width) (hyH : y < s.data_height)
    (hcr : s.is_cross x y = false) :
    s.xy2seq x y < s.total_bits ∧ s.seq2xy (s.xy2seq x y) = some (x, y) := by
  have hc0 : 0 < s.cpitch := by omega
  have hg0 : 0 < s.gap_width := by unfold Settings.gap_width; omega
  have hpitch : s.cpitch = 2 * s.chalf + s.gap_width := by
    unfold Settings.gap_width; omega
  have hrh : s.rep_height = s.cpitch := by
    unfold Settings.rep_height Settings.narrow_height Settings.wide_height
      Settings.gap_width
    omega
  have hww : s.wide_width = s.data_width := by
    unfold Settings.wide_width Settings.width
    omega
  have hnh : s.narrow_height = 2 * s.chalf := rfl
  have hnp : s.narrow_pixels = 2 * s.chalf * s.narrow_width := rfl
  have hwp : s.wide_pixels = s.gap_width * s.wide_width := rfl
  have hrp : s.rep_pixels = s.narrow_pixels + s.wide_pixels := rfl
  have hT : s.total_bits = s.rep_pixels * (s.ycrosses - 1) + s.narrow_pixels := rfl
  have hnw : s.narrow_width = s.gap_width * (s.xcrosses - 1) := rfl
  have hH : s.data_height = s.cpitch * (s.ycrosses - 1) + 2 * s.chalf := rfl
  have hWd : s.data_width = s.cpitch * (s.xcrosses - 1) + 2 * s.chalf := rfl
  obtain ⟨rep, hrep⟩ : ∃ r, y / s.cpitch = r := ⟨_, rfl⟩
  obtain ⟨j, hj⟩ : ∃ t, y % s.cpitch = t := ⟨_, rfl⟩
  have hsplit : s.cpitch * rep + j = y := by
    rw [← hrep, ← hj]; exact Nat.div_add_mod y s.cpitch
  have hjc : j < s.cpitch := by rw [← hj]; exact Nat.mod_lt y hc0
  have hrepY : rep ≤ s.ycrosses - 1 := by
    by_contra hcon
    have h1 : (s.ycrosses - 1) + 1 ≤ rep := by omega
    have h2 := Nat.mul_le_mul_left s.cpitch h1
    rw [Nat.mul_succ] at h2
    omega
  have hcr2 : 2 * s.chalf ≤ x % s.cpitch ∨ 2 * s.chalf ≤ j := by
    by_contra hcon
    push_neg at hcon
    obtain ⟨h1, h2⟩ := hcon
    have htrue : s.is_cross x y = true := by
      unfold Settings.is_cross
      rw [hj, decide_eq_true h1, decide_eq_true h2]
      rfl
    rw [hcr] at htrue
    exact Bool.false_ne_true htrue
  rcases Nat.lt_or_ge j (2 * s.chalf) with hjlt | hjge
  · -- narrow row: data sits in the gaps between crosses
    have hxm : 2 * s.chalf ≤ x % s.cpitch := by
      rcases hcr2 with h | h
      · exact h
      · omega
    obtain ⟨gap, hgap⟩ : ∃ gp, x / s.cpitch = gp := ⟨_, rfl⟩
    obtain ⟨xm, hxmd⟩ : ∃ t, x % s.cpitch = t := ⟨_, rfl⟩
    have hsplitx : s.cpitch * gap + xm = x := by
      rw [← hgap, ← hxmd]; exact Nat.div_add_mod x s.cpitch
    have hxmc : xm < s.cpitch := by rw [← hxmd]; exact Nat.mod_lt x hc0
    have hxmge : 2 * s.chalf ≤ xm := by rw [← hxmd]; exact hxm
    have hgapX : gap < s.xcrosses - 1 := by
      have h1 : s.cpitch * gap < s.cpitch * (s.xcrosses - 1) := by omega
      exact Nat.lt_of_mul_lt_mul_left h1
    have hxyv : s.xy2seq x y =
        rep * s.rep_pixels + j * s.narrow_width + gap * s.gap_width +
          (xm - 2 * s.chalf) := by
      unfold Settings.xy2seq
      dsimp only
      rw [hrep, hj, if_pos hjlt]
      have hxsub : x - 2 * s.chalf = s.cpitch * gap + (xm - 2 * s.chalf) := by
        omega
      have hxm2c : xm - 2 * s.chalf < s.cpitch := by omega
      rw [hxsub, Nat.mul_add_div hc0, Nat.div_eq_of_lt hxm2c, Nat.add_zero,
        Nat.mul_add_mod, Nat.mod_eq_of_lt hxm2c]
    have hxmg : xm - 2 * s.chalf < s.gap_width := by omega
    have hb1 : gap * s.gap_width + (xm - 2 * s.chalf) < s.narrow_width := by
      have h1 : gap + 1 ≤ s.xcrosses - 1 := hgapX
      have h2 := Nat.mul_le_mul_left s.gap_width h1
      rw [Nat.mul_succ] at h2
      have c1 : gap * s.gap_width = s.gap_width * gap := Nat.mul_comm _ _
      omega
    have hb2 : j * s.narrow_width + (gap * s.gap_width + (xm - 2 * s.chalf)) <
        s.narrow_pixels := by
      have h1 : j + 1 ≤ 2 * s.chalf := hjlt
      have h2 := Nat.mul_le_mul_left s.narrow_width h1
      rw [Nat.mul_succ] at h2
      have c1 : j * s.narrow_width = s.narrow_width * j := Nat.mul_comm _ _
      have c2 : 2 * s.chalf * s.narrow_width = s.narrow_width * (2 * s.chalf) :=
        Nat.mul_comm _ _
      omega
    have hrp0 : 0 < s.rep_pixels := by omega
    have hult : j * s.narrow_width + (gap * s.gap_width + (xm - 2 * s.chalf)) <
        s.rep_pixels := by omega
    have hlt : rep * s.rep_pixels + j * s.narrow_width + gap * s.gap_width +
        (xm - 2 * s.chalf) < s.total_bits := by
      have h2 := Nat.mul_le_mul_left s.rep_pixels hrepY
      have c1 : rep * s.rep_pixels = s.rep_pixels * rep := Nat.mul_comm _ _
      omega
    have hE : rep * s.rep_pixels + j * s.narrow_width + gap * s.gap_width +
        (xm - 2 * s.chalf) =
        s.rep_pixels * rep +
          (j * s.narrow_width + (gap * s.gap_width + (xm - 2 * s.chalf))) := by
      have c1 : rep * s.rep_pixels = s.rep_pixels * rep := Nat.mul_comm _ _
      omega
    have himg : s.seq2xy (rep * s.rep_pixels + j * s.narrow_width +
        gap * s.gap_width + (xm - 2 * s.chalf)) = some (x, y) := by
      unfold Settings.seq2xy
      rw [if_neg (by omega)]
      dsimp only
      rw [hE, Nat.mul_add_div hrp0, Nat.div_eq_of_lt hult, Nat.add_zero,
        Nat.mul_add_mod, Nat.mod_eq_of_lt hult]
      rw [if_neg (by omega)]
      have hnw0 : 0 < s.narrow_width := by omega
      have hE2 : j * s.narrow_width + (gap * s.gap_width + (xm - 2 * s.chalf)) =
          s.narrow_width * j + (gap * s.gap_width + (xm - 2 * s.chalf)) := by
        have c1 : j * s.narrow_width = s.narrow_width * j := Nat.mul_comm _ _
        omega
      rw [hE2, Nat.mul_add_div hnw0, Nat.div_eq_of_lt hb1, Nat.add_zero,
        Nat.mul_add_mod, Nat.mod_eq_of_lt hb1]
      have hE3 : gap * s.gap_width + (xm - 2 * s.chalf) =
          s.gap_width * gap + (xm - 2 * s.chalf) := by
        have c1 : gap * s.gap_width = s.gap_width * gap := Nat.mul_comm _ _
        omega
      rw [hE3, Nat.mul_add_div hg0, Nat.div_eq_of_lt hxmg, Nat.add_zero,
        Nat.mul_add_mod, Nat.mod_eq_of_lt hxmg, hrh]
      rw [show 2 * s.chalf + gap * s.cpitch + (xm - 2 * s.chalf) = x by
        have c1 : gap * s.cpitch = s.cpitch * gap := Nat.mul_comm _ _
        omega]
      rw [show s.cpitch * rep + j = y from hsplit]
    exact ⟨by rw [hxyv]; exact hlt, by rw [hxyv]; exact himg⟩
  · -- wide row: the full width is data
    have hrepY2 : rep < s.ycrosses - 1 := by
      have h1 : s.cpitch * rep < s.cpitch * (s.ycrosses - 1) := by omega
      exact Nat.lt_of_mul_lt_mul_left h1
    have hww0 : 0 < s.wide_width := by omega
    have hxww : x < s.wide_width := by omega
    have hjg : j - 2 * s.chalf < s.gap_width := by omega
    have hxyv : s.xy2seq x y =
        rep * s.rep_pixels + s.narrow_pixels +
          (j - 2 * s.chalf) * s.wide_width + x := by
      unfold Settings.xy2seq
      dsimp only
      rw [hrep, hj, if_neg (by omega)]
    have hb1 : (j - 2 * s.chalf) * s.wide_width + x < s.wide_pixels := by
      have h1 : (j - 2 * s.chalf) + 1 ≤ s.gap_width := hjg
      have h2 := Nat.mul_le_mul_left s.wide_width h1
      rw [Nat.mul_succ] at h2
      have c1 : (j - 2 * s.chalf) * s.wide_width =
          s.wide_width * (j - 2 * s.chalf) := Nat.mul_comm _ _
      have c2 : s.gap_width * s.wide_width = s.wide_width * s.gap_width :=
        Nat.mul_comm _ _
      omega
    have hrp0 : 0 < s.rep_pixels := by omega
    have hult : s.narrow_pixels + ((j - 2 * s.chalf) * s.wide_width + x) <
        s.rep_pixels := by omega
    have hlt : rep * s.rep_pixels + s.narrow_pixels +
        (j - 2 * s.chalf) * s.wide_width + x < s.total_bits := by
      have h1 : rep + 1 ≤ s.ycrosses - 1 := hrepY2
      have h2 := Nat.mul_le_mul_left s.rep_pixels h1
      rw [Nat.mul_succ] at h2
      have c1 : rep * s.rep_pixels = s.rep_pixels * rep := Nat.mul_comm _ _
      omega
    have hE : rep * s.rep_pixels + s.narrow_pixels +
        (j - 2 * s.chalf) * s.wide_width + x =
        s.rep_pixels * rep +
          (s.narrow_pixels + ((j - 2 * s.chalf) * s.wide_width + x)) := by
      have c1 : rep * s.rep_pixels = s.rep_pixels * rep := Nat.mul_comm _ _
      omega
    have himg : s.seq2xy (rep * s.rep_pixels + s.narrow_pixels +
        (j - 2 * s.chalf) * s.wide_width + x) = some (x, y) := by
      unfold Settings.seq2xy
      rw [if_neg (by omega)]
      dsimp only
      rw [hE, Nat.mul_add_div hrp0, Nat.div_eq_of_lt hult, Nat.add_zero,
        Nat.mul_add_mod, Nat.mod_eq_of_lt hult]
      rw [if_pos (by omega)]
      rw [show s.narrow_pixels + ((j - 2 * s.chalf) * s.wide_width + x) -
          s.narrow_pixels = (j - 2 * s.chalf) * s.wide_width + x by omega]
      have hE4 : (j - 2 * s.chalf) * s.wide_width + x =
          s.wide_width * (j - 2 * s.chalf) + x := by
        have c1 : (j - 2 * s.chalf) * s.wide_width =
            s.wide_width * (j - 2 * s.chalf) := Nat.mul_comm _ _
        omega
      rw [hE4, Nat.mul_add_div hww0, Nat.div_eq_of_lt hxww, Nat.add_zero,
        Nat.mul_add_mod, Nat.mod_eq_of_lt hxww, hrh, hnh]
      rw [show s.cpitch * rep + 2 * s.chalf + (j - 2 * s.chalf) = y by omega]
    exact ⟨by rw [hxyv]; exact hlt, by rw [hxyv]; exact himg⟩


/-- **C1**: for every valid configuration (`cpitch > 2*chalf`,
`xcrosses >= 1`, `ycrosses >= 1`), `seq2xy` restricted to
`[0, total_bits)` is a bijection onto the set of coordinates inside the
data rectangle `[0, data_width) x [0, data_height)` at which `is_cross` is
false: every in-range index maps to such a coordinate (in particular
`is_cross` is false there), the restriction is injective, and every such
coordinate is hit by some in-range index. -/
theorem C1_seq2xy_bijection (s : Settings) (hc : 2 * s.chalf < s.cpitch)
    (hx : 1 ≤ s.xcrosses) (hy : 1 ≤ s.ycrosses) :
    (∀ seq, seq < s.total_bits → ∃ x y, s.seq2xy seq = some (x, y) ∧
        x < s.data_width ∧ y < s.data_height ∧ s.is_cross x y = false) ∧
    (∀ sa sb, sa < s.total_bits → sb < s.total_bits →
        s.seq2xy sa = s.seq2xy sb → sa = sb) ∧
    (∀ x y, x < s.data_width → y < s.data_height → s.is_cross x y = false →
        ∃ seq, seq < s.total_bits ∧ s.seq2xy seq = some (x, y)) := by
  refine ⟨?_, ?_, ?_⟩
  · intro seq hseq
    obtain ⟨x, y, h1, h2, h3, h4, h5⟩ := seq2xy_forward s hc seq hseq
    exact ⟨x, y, h1, h2, h3, h4⟩
  · intro sa sb hsa hsb heq
    obtain ⟨xa, ya, ha1, ha2, ha3, ha4, ha5⟩ := seq2xy_forward s hc sa hsa
    obtain ⟨xb, yb, hb1, hb2, hb3, hb4, hb5⟩ := seq2xy_forward s hc sb hsb
    rw [ha1, hb1] at heq
    have h := Option.some.inj heq
    rw [Prod.mk.injEq] at h
    obtain ⟨hxx, hyy⟩ := h
    rw [← ha5, ← hb5, hxx, hyy]
  · intro x y hxW hyH hcr
    obtain ⟨h1, h2⟩ := xy2seq_backward s hc x y hxW hyH hcr
    exact ⟨s.xy2seq x y, h1, h2⟩

/-- Witness for C1: the bijection instantiated at the default settings,
whose geometry is valid (`cpitch = 24 > 6 = 2*chalf`, `xcrosses = 67`,
`ycrosses = 87`). -/
theorem C1_witness :
    (∀ seq, seq < Settings.default.total_bits → ∃ x y,
        Settings.default.seq2xy seq = some (x, y) ∧
        x < Settings.default.data_width ∧ y < Settings.default.data_height ∧
        Settings.default.is_cross x y = false) ∧
    (∀ sa sb, sa < Settings.default.total_bits →
        sb < Settings.default.total_bits →
        Settings.default.seq2xy sa = Settings.default.seq2xy sb → sa = sb) ∧
    (∀ x y, x < Settings.default.data_width → y < Settings.default.data_height →
        Settings.default.is_cross x y = false →
        ∃ seq, seq < Settings.default.total_bits ∧
          Settings.default.seq2xy seq = some (x, y)) :=
  C1_seq2xy_bijection Settings.default (by decide) (by decide) (by decide)


/-- The unrolled `parity` fold expressed through `pstep`. -/
theorem parity_eq_pstep (v : Nat) :
    parity v = pstep 1 (pstep 2 (pstep 4 (pstep 8 (pstep 16 (pstep 32 v))))) &&& 1 := rfl

/-- Right shift distributes over XOR. -/
theorem shiftRight_xor_dist (a b s : Nat) :
    (a ^^^ b) >>> s = (a >>> s) ^^^ (b >>> s) := by
  apply Nat.eq_of_testBit_eq
  intro i
  simp [Nat.testBit_shiftRight, Nat.testBit_xor]

/-- XOR regrouping used to push `pstep` through XOR. -/
theorem xor_mix (a b c d : Nat) :
    (a ^^^ b) ^^^ (c ^^^ d) = (a ^^^ c) ^^^ (b ^^^ d) := by
  apply Nat.eq_of_testBit_eq
  intro i
  simp [Nat.testBit_xor, Bool.xor_assoc, Bool.xor_comm, Bool.xor_left_comm]

/-- Each `parity` folding step is XOR-linear. -/
theorem pstep_xor (s a b : Nat) : pstep s (a ^^^ b) = pstep s a ^^^ pstep s b := by
  unfold pstep
  rw [shiftRight_xor_dist]
  exact xor_mix a b (a >>> s) (b >>> s)

/-- `parity` is XOR-linear. -/
theorem parity_xor (a b : Nat) : parity (a ^^^ b) = parity a ^^^ parity b := by
  rw [parity_eq_pstep a, parity_eq_pstep b, parity_eq_pstep (a ^^^ b), pstep_xor,
    pstep_xor, pstep_xor, pstep_xor, pstep_xor, pstep_xor, Nat.and_xor_distrib_right]

/-- `parity` returns at most 1. -/
theorem parity_le_one (v : Nat) : parity v ≤ 1 := Nat.and_le_right

set_option maxRecDepth 8000 in
/-- `parity` of a single set bit below 64 is odd. -/
theorem parity_two_pow_fin : ∀ i : Fin 64, parity (2 ^ (i : Nat)) = 1 := by decide

/-- `parity` of a single set bit below 64 is odd (Nat version). -/
theorem parity_two_pow (i : Nat) (h : i < 64) : parity (2 ^ i) = 1 :=
  parity_two_pow_fin ⟨i, h⟩

set_option maxRecDepth 8000 in
/-- Bit `i` of the Hamming check mask for position `2^k` is bit `k` of `i`
(all 6 masks and 64 bit positions checked by evaluation). -/
theorem hmask_testBit_fin : ∀ k : Fin 6, ∀ i : Fin 64,
    (hmask (2 ^ (k : Nat))).testBit (i : Nat) = (i : Nat).testBit (k : Nat) := by
  decide

/-- Bit `i` of the Hamming check mask for position `2^k` is bit `k` of `i`. -/
theorem hmask_testBit (k i : Nat) (hk : k < 6) (hi : i < 64) :
    (hmask (2 ^ k)).testBit i = i.testBit k :=
  hmask_testBit_fin ⟨k, hk⟩ ⟨i, hi⟩

set_option maxRecDepth 8000 in
/-- The Hamming check masks fit in 64 bits. -/
theorem hmask_lt_fin : ∀ k : Fin 6, hmask (2 ^ (k : Nat)) < 2 ^ 64 := by decide

/-- The Hamming check masks fit in 64 bits (Nat version). -/
theorem hmask_lt (k : Nat) (hk : k < 6) : hmask (2 ^ k) < 2 ^ 64 :=
  hmask_lt_fin ⟨k, hk⟩

/-- Above bit 63 the Hamming check masks are zero. -/
theorem hmask_testBit_ge (k i : Nat) (hk : k < 6) (hi : 64 ≤ i) :
    (hmask (2 ^ k)).testBit i = false :=
  Nat.testBit_eq_false_of_lt
    (lt_of_lt_of_le (hmask_lt k hk) (Nat.pow_le_pow_right (by omega) hi))

/-- A number whose bits at positions `n` and above are all clear is below
`2^n`. -/
theorem lt_two_pow_of_high_bits (v n : Nat)
    (h : ∀ i, n ≤ i → v.testBit i = false) : v < 2 ^ n := by
  have hv : v = v &&& (2 ^ n - 1) := by
    apply Nat.eq_of_testBit_eq
    intro i
    rw [Nat.testBit_and, Nat.testBit_two_pow_sub_one]
    rcases Nat.lt_or_ge i n with hi | hi
    · simp [hi]
    · simp [h i hi]
  have hle : v &&& (2 ^ n - 1) ≤ 2 ^ n - 1 := Nat.and_le_right
  have hpos : 0 < 2 ^ n := pow_pos (by omega) n
  omega

/-- Bitwise OR of disjoint values is their XOR. -/
theorem or_eq_xor_of_and_zero (a b : Nat) (h : a &&& b = 0) :
    a ||| b = a ^^^ b := by
  apply Nat.eq_of_testBit_eq
  intro i
  have hi : (a.testBit i && b.testBit i) = false := by
    rw [← Nat.testBit_and, h, Nat.zero_testBit]
  rw [Nat.testBit_or, Nat.testBit_xor]
  cases ha : a.testBit i <;> cases hb : b.testBit i <;> simp_all

/-- Binary reconstruction: summing the weighted bits of `e` below position
`n` recovers `e` modulo `2^n`. -/
theorem testBit_sum_range (n e : Nat) :
    ∑ k in Finset.range n, (e.testBit k).toNat * 2 ^ k = e % 2 ^ n := by
  induction n with
  | zero => simp [Nat.mod_one]
  | succ m ihm =>
      rw [Finset.sum_range_succ, ihm]
      have hsplit : e % (2 ^ m * 2) = e % 2 ^ m + 2 ^ m * (e / 2 ^ m % 2) :=
        Nat.mod_mul
      have hp : (2 : Nat) ^ (m + 1) = 2 ^ m * 2 := pow_succ 2 m
      rw [hp, hsplit, Nat.testBit_to_div_mod]
      rcases Nat.mod_two_eq_zero_or_one (e / 2 ^ m) with h0 | h1
      · rw [h0]; simp
      · rw [h1]; simp [Nat.mul_comm]

/-- `split` keeps the bits strictly below the split position unchanged. -/
theorem split_testBit_lt (w b i : Nat) (hi : i < b) :
    (split w b).testBit i = w.testBit i := by
  unfold split
  dsimp only
  rw [Nat.one_shiftLeft, Nat.testBit_or, Nat.testBit_shiftLeft]
  cases i with
  | zero =>
      simp [Nat.testBit_and, Nat.testBit_two_pow_sub_one, hi]
  | succ m =>
      have hm : m < b := by omega
      simp [Nat.testBit_xor, Nat.testBit_and, Nat.testBit_two_pow_sub_one, hi, hm]

/-- `split` leaves a zero bit at the split position. -/
theorem split_testBit_self (w b : Nat) (hb : 0 < b) :
    (split w b).testBit b = false := by
  unfold split
  dsimp only
  rw [Nat.one_shiftLeft, Nat.testBit_or, Nat.testBit_shiftLeft]
  have hb1 : b - 1 < b := by omega
  simp [Nat.testBit_xor, Nat.testBit_and, Nat.testBit_two_pow_sub_one, hb, hb1]

/-- `split` grows the value by at most one bit. -/
theorem split_lt (w b m : Nat) (hw : w < 2 ^ m) : split w b < 2 ^ (m + 1) := by
  unfold split
  dsimp only
  have hlow : w &&& ((1 <<< b) - 1) ≤ w := Nat.and_le_left
  have hhigh : w ^^^ (w &&& ((1 <<< b) - 1)) ≤ w := by
    apply Nat.le_of_testBit
    intro i hi
    rw [Nat.testBit_xor, Nat.testBit_and] at hi
    cases hw2 : w.testBit i
    · rw [hw2] at hi; simp at hi
    · rfl
  have hp : (2 : Nat) ^ (m + 1) = 2 ^ m * 2 := pow_succ 2 m
  apply Nat.or_lt_two_pow
  · rw [Nat.shiftLeft_eq, Nat.pow_one]
    omega
  · omega


/-- `parity` of zero. -/
theorem parity_zero : parity 0 = 0 := rfl

/-- The split loop of `hamming` keeps the check-bit positions `2^j`
(`j < n`) and bit 0 clear, and grows the input by one bit per split. -/
theorem splitLoop_spec : ∀ n, 2 ≤ n → n ≤ 6 → ∀ v S, v < 2 ^ S → v % 8 = 0 →
    splitLoop v n < 2 ^ (S + n - 2) ∧
    (∀ j, j < n → (splitLoop v n).testBit (2 ^ j) = false) ∧
    (splitLoop v n).testBit 0 = false := by
  intro n
  induction n with
  | zero =>
      intro h2
      exact absurd h2 (by omega)
  | succ m ih =>
      intro h2 h6 v S hv h8
      rcases Nat.lt_or_ge m 2 with hm2 | hm2
      · have hm : m = 1 := by omega
        subst hm
        have hid : splitLoop v (1 + 1) = v := rfl
        rw [hid]
        refine ⟨?_, ?_, ?_⟩
        · rw [show S + (1 + 1) - 2 = S by omega]
          exact hv
        · intro j hj
          rcases j with _ | _ | j
          · rw [pow_zero, Nat.testBit_to_div_mod, pow_one]
            simp only [decide_eq_false_iff_not]
            omega
          · rw [pow_one, Nat.testBit_to_div_mod,
              show (2 : Nat) ^ 2 = 4 by norm_num]
            simp only [decide_eq_false_iff_not]
            omega
          · exact absurd hj (by omega)
        · rw [Nat.testBit_zero]
          simp only [decide_eq_false_iff_not]
          omega
      · obtain ⟨m2, rfl⟩ : ∃ m2, m = m2 + 2 := ⟨m - 2, by omega⟩
        have heq : splitLoop v (m2 + 2 + 1) =
            split (splitLoop v (m2 + 2)) (1 <<< (m2 + 2)) := rfl
        rw [heq, Nat.one_shiftLeft]
        obtain ⟨ihlt, ihbits, ihz⟩ := ih (by omega) (by omega) v S hv h8
        have h2m : 0 < 2 ^ (m2 + 2) := pow_pos (by omega) (m2 + 2)
        refine ⟨?_, ?_, ?_⟩
        · have hs := split_lt (splitLoop v (m2 + 2)) (2 ^ (m2 + 2))
            (S + (m2 + 2) - 2) ihlt
          rw [show S + (m2 + 2) - 2 + 1 = S + (m2 + 2 + 1) - 2 by omega] at hs
          exact hs
        · intro j hj
          rcases Nat.lt_or_ge j (m2 + 2) with hjm | hjm
          · rw [split_testBit_lt _ _ _ (Nat.pow_lt_pow_right (by omega) hjm)]
            exact ihbits j hjm
          · have hjem : j = m2 + 2 := by omega
            rw [hjem, split_testBit_self _ _ h2m]
        · rw [split_testBit_lt _ _ _ h2m]
          exact ihz

/-- The check-bit loop of `hamming`: starting from a word whose check
positions `2^j` (`j < k`) are clear, it produces a word whose masked
parities all vanish, touching only the check positions. -/
theorem checkLoop_spec : ∀ k, k ≤ 6 → ∀ w,
    (∀ j, j < k → w.testBit (2 ^ j) = false) →
    (∀ j, j < k → parity (checkLoop w k &&& hmask (2 ^ j)) = 0) ∧
    (∀ i, (∀ j, j < k → i ≠ 2 ^ j) → (checkLoop w k).testBit i = w.testBit i) := by
  intro k
  induction k with
  | zero =>
      intro _ w _
      exact ⟨fun j hj => absurd hj (by omega), fun i _ => rfl⟩
  | succ k ih =>
      intro hk6 w hw
      have hstep : checkLoop w (k + 1) =
          checkLoop (w ||| (parity (w &&& hmask (1 <<< k)) <<< (1 <<< k))) k := rfl
      simp only [Nat.one_shiftLeft] at hstep
      obtain ⟨p, hpd⟩ : ∃ t, parity (w &&& hmask (2 ^ k)) = t := ⟨_, rfl⟩
      rw [hpd] at hstep
      have hple : p ≤ 1 := by rw [← hpd]; exact parity_le_one _
      have h2k64 : 2 ^ k < 64 := by
        have h := Nat.pow_le_pow_right (show 0 < 2 by omega) (show k ≤ 5 by omega)
        have h32 : (2 : Nat) ^ 5 = 32 := by norm_num
        omega
      have hshift : ∀ i, i ≠ 2 ^ k → (p <<< 2 ^ k).testBit i = false := by
        intro i hi
        rw [Nat.testBit_shiftLeft]
        rcases Nat.le_one_iff_eq_zero_or_eq_one.mp hple with h0 | h1
        · rw [h0]
          simp [Nat.zero_testBit]
        · rw [h1]
          rcases Nat.lt_or_ge i (2 ^ k) with hlt | hge
          · simp [ge_iff_le, show ¬ (2 ^ k ≤ i) by omega]
          · have hone : (1 : Nat).testBit (i - 2 ^ k) = false := by
              rw [show (1 : Nat) = 2 ^ 0 by norm_num, Nat.testBit_two_pow]
              simp only [decide_eq_false_iff_not]
              omega
            simp [hone]
      have hw2 : ∀ j, j < k → (w ||| p <<< 2 ^ k).testBit (2 ^ j) = false := by
        intro j hj
        have hne : 2 ^ j ≠ 2 ^ k := by
          have h := Nat.pow_lt_pow_right (show 1 < 2 by omega) hj
          omega
        rw [Nat.testBit_or, hw j (by omega), hshift (2 ^ j) hne]
        rfl
      obtain ⟨hih1, hih2⟩ := ih (by omega) (w ||| p <<< 2 ^ k) hw2
      constructor
      · intro j hj
        rcases Nat.lt_or_ge j k with hjk | hjk
        · rw [hstep]
          exact hih1 j hjk
        · have hjek : j = k := by omega
          rw [hjek, hstep]
          have hagree : checkLoop (w ||| p <<< 2 ^ k) k &&& hmask (2 ^ k) =
              (w ||| p <<< 2 ^ k) &&& hmask (2 ^ k) := by
            apply Nat.eq_of_testBit_eq
            intro i
            rw [Nat.testBit_and, Nat.testBit_and]
            cases hmb : (hmask (2 ^ k)).testBit i
            · rw [Bool.and_false, Bool.and_false]
            · have hi64 : i < 64 := by
                by_contra hcon
                rw [hmask_testBit_ge k i (by omega) (by omega)] at hmb
                simp at hmb
              have hik : i.testBit k = true := by
                rw [← hmask_testBit k i (by omega) hi64]
                exact hmb
              have hne : ∀ j2, j2 < k → i ≠ 2 ^ j2 := by
                intro j2 hj2 hcon
                rw [hcon, Nat.testBit_two_pow] at hik
                simp only [decide_eq_true_eq] at hik
                omega
              rw [hih2 i hne]
          rw [hagree]
          have hdisj : w &&& (p <<< 2 ^ k) = 0 := by
            apply Nat.eq_of_testBit_eq
            intro i
            rw [Nat.testBit_and, Nat.zero_testBit]
            rcases Decidable.em (i = 2 ^ k) with hei | hei
            · rw [hei, hw k (by omega), Bool.false_and]
            · rw [hshift i hei, Bool.and_false]
          rw [or_eq_xor_of_and_zero w (p <<< 2 ^ k) hdisj,
            Nat.and_xor_distrib_right, parity_xor, hpd]
          have hqm : (p <<< 2 ^ k) &&& hmask (2 ^ k) = p <<< 2 ^ k := by
            rcases Nat.le_one_iff_eq_zero_or_eq_one.mp hple with h0 | h1
            · rw [h0, Nat.zero_shiftLeft, Nat.zero_and]
            · rw [h1, Nat.one_shiftLeft, Nat.and_comm, Nat.and_two_pow,
                hmask_testBit k (2 ^ k) (by omega) h2k64, Nat.testBit_two_pow]
              simp
          rw [hqm]
          have hpq : parity (p <<< 2 ^ k) = p := by
            rcases Nat.le_one_iff_eq_zero_or_eq_one.mp hple with h0 | h1
            · rw [h0, Nat.zero_shiftLeft]
              rfl
            · rw [h1, Nat.one_shiftLeft]
              exact parity_two_pow (2 ^ k) h2k64
          rw [hpq, Nat.xor_self]
      · intro i hi
        rw [hstep, hih2 i (fun j2 hj2 => hi j2 (by omega)), Nat.testBit_or,
          hshift i (hi k (by omega)), Bool.or_false]

/-- The `hamming` codeword: it fits in `2^order` bits, its overall parity
is even, and all its positional check parities vanish. -/
theorem hamming_invariant (x order : Nat) (h2 : 2 ≤ order) (h6 : order ≤ 6) :
    hamming x order < 2 ^ 2 ^ order ∧ parity (hamming x order) = 0 ∧
    (∀ k, k < order → parity (hamming x order &&& hmask (2 ^ k)) = 0) := by
  have hop : order < 2 ^ order := Nat.lt_two_pow order
  obtain ⟨masked, hmaskd⟩ :
      ∃ t, x &&& ((1 <<< FecOrder.small_bits (.Hamming order)) - 1) = t := ⟨_, rfl⟩
  obtain ⟨sp, hsp⟩ : ∃ t, splitLoop (masked <<< 3) order = t := ⟨_, rfl⟩
  obtain ⟨ck, hck⟩ : ∃ t, checkLoop sp order = t := ⟨_, rfl⟩
  have hham : hamming x order = ck ||| parity ck := by
    unfold hamming
    dsimp only
    rw [hmaskd, hsp, hck]
  have hsmall : FecOrder.small_bits (.Hamming order) = 2 ^ order - 1 - order := by
    simp only [FecOrder.small_bits, FecOrder.large_bits, Nat.one_shiftLeft]
  have hmlt : masked < 2 ^ FecOrder.small_bits (.Hamming order) := by
    rw [← hmaskd, Nat.one_shiftLeft]
    have h1 : x &&& (2 ^ FecOrder.small_bits (.Hamming order) - 1) ≤
        2 ^ FecOrder.small_bits (.Hamming order) - 1 := Nat.and_le_right
    have hpos : 0 < 2 ^ FecOrder.small_bits (.Hamming order) :=
      pow_pos (by omega) _
    omega
  have h8 : (masked <<< 3) % 8 = 0 := by
    rw [Nat.shiftLeft_eq, show (2 : Nat) ^ 3 = 8 by norm_num]
    exact Nat.mul_mod_left masked 8
  have hslt : masked <<< 3 < 2 ^ (FecOrder.small_bits (.Hamming order) + 3) := by
    rw [Nat.shiftLeft_eq, pow_add, show (2 : Nat) ^ 3 = 8 by norm_num]
    omega
  obtain ⟨hsplt, hspbits, hspz⟩ := splitLoop_spec order h2 h6 (masked <<< 3)
    (FecOrder.small_bits (.Hamming order) + 3) hslt h8
  rw [hsp] at hsplt hspbits hspz
  have hexp : FecOrder.small_bits (.Hamming order) + 3 + order - 2 = 2 ^ order := by
    rw [hsmall]
    omega
  rw [hexp] at hsplt
  obtain ⟨hckmask, hckbit⟩ := checkLoop_spec order h6 sp hspbits
  rw [hck] at hckmask hckbit
  have hckz : ck.testBit 0 = false := by
    have h0 := hckbit 0 (fun j hj => by
      have := pow_pos (show 0 < 2 by omega) j
      omega)
    rw [hspz] at h0
    exact h0
  have hcklt : ck < 2 ^ 2 ^ order := by
    apply lt_two_pow_of_high_bits
    intro i hi
    have hne : ∀ j, j < order → i ≠ 2 ^ j := by
      intro j hj hcon
      have hlt : 2 ^ j < 2 ^ order := Nat.pow_lt_pow_right (by omega) hj
      omega
    rw [hckbit i hne]
    exact Nat.testBit_eq_false_of_lt
      (lt_of_lt_of_le hsplt (Nat.pow_le_pow_right (by omega) hi))
  obtain ⟨p0, hp0⟩ : ∃ t, parity ck = t := ⟨_, rfl⟩
  have hp0le : p0 ≤ 1 := by rw [← hp0]; exact parity_le_one ck
  have hdisj : ck &&& p0 = 0 := by
    rcases Nat.le_one_iff_eq_zero_or_eq_one.mp hp0le with h0 | h1
    · rw [h0, Nat.and_zero]
    · rw [h1, Nat.and_one_is_mod]
      have hz := hckz
      rw [Nat.testBit_zero] at hz
      simp only [decide_eq_false_iff_not] at hz
      omega
  have hxor : ck ||| p0 = ck ^^^ p0 := or_eq_xor_of_and_zero ck p0 hdisj
  rw [hham, hp0, hxor]
  refine ⟨?_, ?_, ?_⟩
  · apply Nat.xor_lt_two_pow hcklt
    have hpp : 0 < 2 ^ order := pow_pos (by omega) order
    have hmono := Nat.pow_le_pow_right (show 0 < 2 by omega)
      (show 1 ≤ 2 ^ order by omega)
    have h21 : (2 : Nat) ^ 1 = 2 := by norm_num
    omega
  · rw [parity_xor, hp0]
    rcases Nat.le_one_iff_eq_zero_or_eq_one.mp hp0le with h0 | h1
    · rw [h0]
      rfl
    · rw [h1]
      rfl
  · intro k hk
    rw [Nat.and_xor_distrib_right, parity_xor]
    have hmk0 : p0 &&& hmask (2 ^ k) = 0 := by
      rcases Nat.le_one_iff_eq_zero_or_eq_one.mp hp0le with h0 | h1
      · rw [h0, Nat.zero_and]
      · rw [h1, Nat.and_comm, Nat.and_one_is_mod]
        have hm0 : (hmask (2 ^ k)).testBit 0 = false := by
          rw [hmask_testBit k 0 (by omega) (by omega), Nat.zero_testBit]
        rw [Nat.testBit_zero] at hm0
        simp only [decide_eq_false_iff_not] at hm0
        omega
    rw [hmk0, hckmask k hk]
    rfl


/-- Observables after flipping a single codeword bit `e`: the overall
parity becomes odd and the syndrome equals the flipped position. -/
theorem flip_obs (order c : Nat) (h6 : order ≤ 6)
    (hpar : parity c = 0)
    (hmaskpar : ∀ k, k < order → parity (c &&& hmask (2 ^ k)) = 0)
    (e : Nat) (he : e < 2 ^ order) :
    parity (c ^^^ (1 <<< e)) = 1 ∧ syndrome order (c ^^^ (1 <<< e)) = e := by
  have h2o64 : 2 ^ order ≤ 64 := by
    have hh := Nat.pow_le_pow_right (show 0 < 2 by omega) h6
    have h64 : (2 : Nat) ^ 6 = 64 := by norm_num
    omega
  have he64 : e < 64 := by omega
  constructor
  · rw [Nat.one_shiftLeft, parity_xor, hpar, parity_two_pow e he64]
    rfl
  · unfold syndrome
    have hterm : ∀ k ∈ Finset.range order,
        parity ((c ^^^ (1 <<< e)) &&& hmask (1 <<< k)) * (1 <<< k) =
          (e.testBit k).toNat * 2 ^ k := by
      intro k hkmem
      have hk : k < order := Finset.mem_range.mp hkmem
      rw [Nat.one_shiftLeft, Nat.one_shiftLeft, Nat.and_xor_distrib_right,
        parity_xor, hmaskpar k hk, Nat.zero_xor, Nat.and_comm, Nat.and_two_pow,
        hmask_testBit k e (by omega) he64]
      cases hbit : e.testBit k
      · simp [parity_zero]
      · rw [Bool.toNat_true, Nat.one_mul, parity_two_pow e he64]
    rw [Finset.sum_congr rfl hterm, testBit_sum_range order e]
    exact Nat.mod_eq_of_lt he

/-- Observables after flipping two codeword bits `e` and `f`: the overall
parity stays even and the syndrome equals `e ^^^ f`. -/
theorem flip2_obs (order c : Nat) (h6 : order ≤ 6)
    (hpar : parity c = 0)
    (hmaskpar : ∀ k, k < order → parity (c &&& hmask (2 ^ k)) = 0)
    (e f : Nat) (he : e < 2 ^ order) (hf : f < 2 ^ order) :
    parity (c ^^^ (1 <<< e) ^^^ (1 <<< f)) = 0 ∧
    syndrome order (c ^^^ (1 <<< e) ^^^ (1 <<< f)) = e ^^^ f := by
  have h2o64 : 2 ^ order ≤ 64 := by
    have hh := Nat.pow_le_pow_right (show 0 < 2 by omega) h6
    have h64 : (2 : Nat) ^ 6 = 64 := by norm_num
    omega
  have he64 : e < 64 := by omega
  have hf64 : f < 64 := by omega
  constructor
  · rw [Nat.one_shiftLeft, Nat.one_shiftLeft, parity_xor, parity_xor, hpar,
      parity_two_pow e he64, parity_two_pow f hf64]
    rfl
  · unfold syndrome
    have hterm : ∀ k ∈ Finset.range order,
        parity ((c ^^^ (1 <<< e) ^^^ (1 <<< f)) &&& hmask (1 <<< k)) * (1 <<< k) =
          ((e ^^^ f).testBit k).toNat * 2 ^ k := by
      intro k hkmem
      have hk : k < order := Finset.mem_range.mp hkmem
      rw [Nat.one_shiftLeft, Nat.one_shiftLeft, Nat.one_shiftLeft,
        Nat.and_xor_distrib_right, Nat.and_xor_distrib_right, parity_xor,
        parity_xor, hmaskpar k hk, Nat.zero_xor,
        Nat.and_comm (2 ^ e) (hmask (2 ^ k)), Nat.and_comm (2 ^ f) (hmask (2 ^ k)),
        Nat.and_two_pow, Nat.and_two_pow, hmask_testBit k e (by omega) he64,
        hmask_testBit k f (by omega) hf64, Nat.testBit_xor]
      cases hbe : e.testBit k <;> cases hbf : f.testBit k <;>
        simp [parity_zero, parity_two_pow e he64, parity_two_pow f hf64,
          Nat.xor_self]
    rw [Finset.sum_congr rfl hterm, testBit_sum_range order (e ^^^ f)]
    exact Nat.mod_eq_of_lt (Nat.xor_lt_two_pow he hf)

/-- **C2**: for every supported Hamming order (2 to 6; the mask table covers
64 bits) and every input `x`, `hamming x order` is a codeword exactly
`large_bits = 2^order` bits wide whose overall parity is even and whose
syndrome is zero; flipping exactly one bit at position `e` is detectable
(odd overall parity) and locatable (the syndrome of positional parities
reconstructs `e`); flipping two distinct bits is detectable (even overall
parity with nonzero syndrome, unlike the clean codeword) but not locatable:
a different pair of positions yields the same parity and syndrome. -/
theorem C2_hamming_code (order : Nat) (h2 : 2 ≤ order) (h6 : order ≤ 6)
    (x : Nat) :
    hamming x order < 2 ^ FecOrder.large_bits (.Hamming order) ∧
    parity (hamming x order) = 0 ∧
    syndrome order (hamming x order) = 0 ∧
    (∀ e, e < FecOrder.large_bits (.Hamming order) →
      parity (hamming x order ^^^ (1 <<< e)) = 1 ∧
      syndrome order (hamming x order ^^^ (1 <<< e)) = e) ∧
    (∀ e f, e < FecOrder.large_bits (.Hamming order) →
        f < FecOrder.large_bits (.Hamming order) → e ≠ f →
      parity (hamming x order ^^^ (1 <<< e) ^^^ (1 <<< f)) = 0 ∧
      syndrome order (hamming x order ^^^ (1 <<< e) ^^^ (1 <<< f)) ≠ 0 ∧
      ∃ a b, a < FecOrder.large_bits (.Hamming order) ∧
        b < FecOrder.large_bits (.Hamming order) ∧ a ≠ b ∧
        ¬ (a = e ∧ b = f) ∧ ¬ (a = f ∧ b = e) ∧
        parity (hamming x order ^^^ (1 <<< a) ^^^ (1 <<< b)) =
          parity (hamming x order ^^^ (1 <<< e) ^^^ (1 <<< f)) ∧
        syndrome order (hamming x order ^^^ (1 <<< a) ^^^ (1 <<< b)) =
          syndrome order (hamming x order ^^^ (1 <<< e) ^^^ (1 <<< f))) := by
  obtain ⟨hw, hp, hm⟩ := hamming_invariant x order h2 h6
  have hlb : FecOrder.large_bits (.Hamming order) = 2 ^ order := by
    simp only [FecOrder.large_bits, Nat.one_shiftLeft]
  rw [hlb]
  refine ⟨hw, hp, ?_, ?_, ?_⟩
  · unfold syndrome
    have hterm : ∀ k ∈ Finset.range order,
        parity (hamming x order &&& hmask (1 <<< k)) * (1 <<< k) = 0 := by
      intro k hkmem
      rw [Nat.one_shiftLeft, hm k (Finset.mem_range.mp hkmem), Nat.zero_mul]
    rw [Finset.sum_congr rfl hterm]
    simp
  · intro e he
    exact flip_obs order (hamming x order) h6 hp hm e he
  · intro e f he hf hef
    obtain ⟨hp2, hs2⟩ := flip2_obs order (hamming x order) h6 hp hm e f he hf
    have hq0 : e ^^^ f ≠ 0 := fun h => hef (Nat.xor_eq_zero.mp h)
    refine ⟨hp2, by rw [hs2]; exact hq0, ?_⟩
    have h4 : (4 : Nat) ≤ 2 ^ order := by
      have hh := Nat.pow_le_pow_right (show 0 < 2 by omega) h2
      have h22 : (2 : Nat) ^ 2 = 4 := by norm_num
      omega
    obtain ⟨a, ha4, hae, haf⟩ : ∃ a, a < 4 ∧ a ≠ e ∧ a ≠ f := by
      by_cases he0 : e = 0
      · by_cases hf1 : f = 1
        · exact ⟨2, by omega, by omega, by omega⟩
        · exact ⟨1, by omega, by omega, by omega⟩
      · by_cases hf0 : f = 0
        · by_cases he1 : e = 1
          · exact ⟨2, by omega, by omega, by omega⟩
          · exact ⟨1, by omega, by omega, by omega⟩
        · exact ⟨0, by omega, by omega, by omega⟩
    have halt : a < 2 ^ order := by omega
    have hqlt : e ^^^ f < 2 ^ order := Nat.xor_lt_two_pow he hf
    have hblt : a ^^^ (e ^^^ f) < 2 ^ order := Nat.xor_lt_two_pow halt hqlt
    obtain ⟨hp3, hs3⟩ := flip2_obs order (hamming x order) h6 hp hm a
      (a ^^^ (e ^^^ f)) halt hblt
    have hab : a ^^^ (a ^^^ (e ^^^ f)) = e ^^^ f := by
      rw [← Nat.xor_assoc, Nat.xor_self, Nat.zero_xor]
    have hbne : a ≠ a ^^^ (e ^^^ f) := by
      intro hcon
      apply hq0
      have h3 := congrArg (fun t => a ^^^ t) hcon
      simp only at h3
      rw [Nat.xor_self, hab] at h3
      exact h3.symm
    refine ⟨a, a ^^^ (e ^^^ f), halt, hblt, hbne,
      fun hcon => hae hcon.1, fun hcon => haf hcon.1, ?_, ?_⟩
    · rw [hp2, hp3]
    · rw [hs2, hs3, hab]

/-- Witness for C2: Hamming order 3 with input 5; the codeword is 8 bits
wide, clean parity/syndrome read "no error", and flipping bit 6 is detected
and located. -/
theorem C2_witness :
    hamming 5 3 < 2 ^ FecOrder.large_bits (.Hamming 3) ∧
    parity (hamming 5 3) = 0 ∧
    syndrome 3 (hamming 5 3) = 0 ∧
    parity (hamming 5 3 ^^^ (1 <<< 6)) = 1 ∧
    syndrome 3 (hamming 5 3 ^^^ (1 <<< 6)) = 6 := by
  obtain ⟨hw, hp, hs, hsingle, hdouble⟩ := C2_hamming_code 3 (by decide) (by decide) 5
  obtain ⟨h1, h2⟩ := hsingle 6 (by decide)
  exact ⟨hw, hp, hs, h1, h2⟩

end Optar
